import Mathlib

/-!
Verification of the AMADEUS simple-logic system (src/logic.py,
src/knowledgebase.py) against its natural-language specification.

Shallow embedding conventions:
* Python strings are `List Char` (`Str`); the public entry points take Lean
  `String`s and immediately pass to `String.data`.
* A Python `frozenset` of literals is a duplicate-free list under the value
  equality of `Literal.__eq__` (`litEq`); its list order stands in for the
  unspecified iteration order of a CPython set.
* Python object identity is modelled by an allocation id carried in every
  `Literal`; value equality (`litEq`) ignores it, structural equality `=`
  is object identity for parser-allocated literals.
* Python exceptions are modelled with `Except PyErr`.
* `Literal.is_supported` (logic.py) reads `self.case.is_supported` where
  `Case.is_supported` (knowledgebase.py) is a plain method, so the attribute
  access yields a bound-method object, not a call; `PyVal` keeps that
  distinction so that truthiness and call semantics can be rendered exactly.
-/

namespace Amadeus

/-- Python exceptions that the embedded code can raise. -/
inductive PyErr where
  | typeError
  | attributeError
  | keyError
  | indexError
  | valueError
  deriving DecidableEq, Repr

/-- Python strings, as lists of characters. -/
abbrev Str := List Char

/-- The whitespace characters stripped by Python's `str.strip()` (ASCII part). -/
def isPySpace (c : Char) : Bool :=
  decide (c = ' ' ∨ c = '\t' ∨ c = '\n' ∨ c = '\r' ∨ c = '\x0b' ∨ c = '\x0c')

/-- Embedding of Python's `str.strip()`: drop whitespace from both ends. -/
def pyStrip (cs : Str) : Str :=
  ((cs.dropWhile isPySpace).reverse.dropWhile isPySpace).reverse

/-- Decidable check that `sep` is a prefix of `cs`. -/
def isPre : Str → Str → Bool
  | [], _ => true
  | _ :: _, [] => false
  | a :: sr, c :: cr => decide (a = c) && isPre sr cr

/-- Fuel-indexed worker for Python's `str.split(sep)` with a non-empty
separator: cut at each leftmost non-overlapping occurrence of `sep`.
The fuel only serves structural recursion; it is never exhausted when
`fuel > cs.length`. -/
def pySplitFuel (sep : Str) : Nat → Str → List Str
  | 0, cs => [cs]
  | fuel + 1, cs =>
    if sep = [] then [cs]
    else if isPre sep cs then [] :: pySplitFuel sep fuel (cs.drop sep.length)
    else
      match cs with
      | [] => [[]]
      | c :: rest =>
        match pySplitFuel sep fuel rest with
        | [] => [[c]]
        | p :: ps => (c :: p) :: ps

/-- Embedding of Python's `str.split(sep)` for a non-empty separator. -/
def pySplit (sep cs : Str) : List Str :=
  pySplitFuel sep (cs.length + 1) cs

/-- Embedding of Python's substring containment test `sep in cs`. -/
def containsSeq (sep : Str) : Str → Bool
  | [] => isPre sep []
  | c :: rest => isPre sep (c :: rest) || containsSeq sep rest

/-- Embedding of Python's `sep.join(parts)`. -/
def joinChars (sep : Str) : List Str → Str
  | [] => []
  | [p] => p
  | p :: ps => p ++ sep ++ joinChars sep ps

/-- Embedding of the `Literal` class of logic.py.  `id` models Python object
identity (the allocation order); `atom` and `is_positive` are the two
attributes set by `Literal.__init__`. -/
structure Literal where
  id : Nat
  atom : Str
  is_positive : Bool
  deriving DecidableEq, Repr

/-- Embedding of `Literal.__init__` (logic.py): when the `is_positive`
argument is omitted or passed as `None`, it is replaced by `True`. -/
def literalInit (id : Nat) (atom : Str) (is_positive : Option Bool) : Literal :=
  { id := id, atom := atom, is_positive := is_positive.getD true }

/-- Embedding of `Literal.__eq__` (logic.py): equality of the atom and the
sign; object identity (`id`) is ignored. -/
def litEq (a b : Literal) : Bool :=
  decide (a.atom = b.atom ∧ a.is_positive = b.is_positive)

/-- Embedding of `Literal.__str__` (logic.py): the atom, prefixed with `~`
when the literal is negative. -/
def strLit (l : Literal) : Str :=
  if l.is_positive then l.atom else '~' :: l.atom

/-- Worker for `pyDedup`: drop every element equal (under `eq`) to an element
already kept, keeping first occurrences, as a Python `set`/`frozenset`
built from an iterable does. -/
def pyDedupAcc (eq : α → α → Bool) (seen : List α) : List α → List α
  | [] => []
  | x :: xs =>
    if seen.any (fun s => eq s x) then pyDedupAcc eq seen xs
    else x :: pyDedupAcc eq (x :: seen) xs

/-- The duplicate-free list standing for `frozenset(xs)`. -/
def pyDedup (eq : α → α → Bool) (xs : List α) : List α :=
  pyDedupAcc eq [] xs

/-- Set equality of two lists under `eq`: mutual containment.  This is the
equality of the Python `frozenset`s the lists stand for. -/
def listSetEq (eq : α → α → Bool) (xs ys : List α) : Bool :=
  xs.all (fun x => ys.any (fun y => eq x y)) && ys.all (fun y => xs.any (fun x => eq x y))

/-- Embedding of the `Clause` class of logic.py: its `_literals` frozenset. -/
structure Clause where
  literals : List Literal
  deriving DecidableEq, Repr

/-- Embedding of `Clause.__init__`: `self._literals = frozenset(literals)`. -/
def mkClause (ls : List Literal) : Clause :=
  ⟨pyDedup litEq ls⟩

/-- Embedding of `Clause.__eq__`: equality of the literal frozensets. -/
def clauseEq (c1 c2 : Clause) : Bool :=
  listSetEq litEq c1.literals c2.literals

/-- Lexicographic order on Python strings (`<` by code point), as used by
`sorted(..., key=lambda x: str(x))` in `Clause.__str__`. -/
def strLe : Str → Str → Bool
  | [], _ => true
  | _ :: _, [] => false
  | c :: cs, d :: ds => if c = d then strLe cs ds else decide (c < d)

/-- Insertion step of sorting literals by their printed form. -/
def insertByStr (l : Literal) : List Literal → List Literal
  | [] => [l]
  | x :: xs => if strLe (strLit l) (strLit x) then l :: x :: xs else x :: insertByStr l xs

/-- Sorting literals by their printed form (`sorted(ls, key=str)`). -/
def sortByStr : List Literal → List Literal
  | [] => []
  | x :: xs => insertByStr x (sortByStr xs)

/-- Embedding of `Clause.__str__`: the literals, sorted by printed form,
joined with a comma and a space, with a trailing full stop. -/
def strClause (c : Clause) : Str :=
  joinChars [',', ' '] ((sortByStr c.literals).map strLit) ++ ['.']

/-- Embedding of the `Rule` class of logic.py: head literal and body
frozenset. -/
structure Rule where
  head : Literal
  body : List Literal
  deriving DecidableEq, Repr

/-- Embedding of `Rule.__init__`: `self._head = head`,
`self._body = frozenset(body)`.  There is no check at all on `body`; an
empty body is accepted. -/
def mkRule (head : Literal) (body : List Literal) : Rule :=
  ⟨head, pyDedup litEq body⟩

/-- Embedding of `Rule.__eq__`: equality of head and of the body frozenset. -/
def ruleEq (r1 r2 : Rule) : Bool :=
  litEq r1.head r2.head && listSetEq litEq r1.body r2.body

/-- Embedding of `Rule.__str__`: head, `":- "`, the body literals joined with
a comma and a space (in the frozenset's iteration order), trailing stop. -/
def strRule (r : Rule) : Str :=
  strLit r.head ++ [':', '-', ' '] ++ joinChars [',', ' '] (r.body.map strLit) ++ ['.']

/-- A statement produced by the parser: a `Clause` or a `Rule`. -/
inductive Content where
  | clause (c : Clause)
  | rule (r : Rule)
  deriving DecidableEq, Repr

/-- Equality of contents as Python sees it: `Clause.__eq__` on two clauses,
`Rule.__eq__` on two rules, `False` across the two classes. -/
def contentEq : Content → Content → Bool
  | .clause a, .clause b => clauseEq a b
  | .rule a, .rule b => ruleEq a b
  | _, _ => false

/-- Parser state of a `PrologString` (knowledgebase.py): the allocation
counter for object identities and the `_literals` dictionary, an
insertion-ordered association list from the literal's source token to the
shared `Literal` instance. -/
structure PState where
  nextId : Nat
  literals : List (Str × Literal)
  deriving DecidableEq, Repr

/-- First-match lookup in an association list (a Python `dict` access that
yields `none` where Python would raise `KeyError`). -/
def lookupS : List (Str × α) → Str → Option α
  | [], _ => none
  | (k', v) :: rest, k => if k' = k then some v else lookupS rest k

/-- The literal `PrologString._parse_literal` builds from a fresh token
(`if s[0] == "~"`): negative when the token starts with `~` (the atom is
the remainder), positive otherwise.  The empty-token case is unreachable
(the caller raises `IndexError` first). -/
def tokenLit (id : Nat) (s : Str) : Literal :=
  match s with
  | c :: rest => if c = '~' then ⟨id, rest, false⟩ else ⟨id, s, true⟩
  | [] => ⟨id, s, true⟩

/-- The (atom, sign) pair a token denotes, mirroring `tokenLit`. -/
def tokenVal (s : Str) : Str × Bool :=
  match s with
  | c :: rest => if c = '~' then (rest, false) else (s, true)
  | [] => (s, true)

/-- Embedding of `PrologString._parse_literal` (knowledgebase.py): strip the
token, return the registered instance if the token was seen before,
otherwise allocate a new `Literal` and register it.  Accessing `s[0]` of an
empty token raises `IndexError`. -/
def parseLiteral (s : Str) (st : PState) : Except PyErr (Literal × PState) :=
  let t := pyStrip s
  match lookupS st.literals t with
  | some l => .ok (l, st)
  | none =>
    match t with
    | [] => .error .indexError
    | _ =>
      let lit := tokenLit st.nextId t
      .ok (lit, ⟨st.nextId + 1, st.literals ++ [(t, lit)]⟩)

/-- Loop of `PrologString._parse_literals`: split around commas, strip,
skip empty pieces, parse each and collect into a set (duplicates under
`Literal.__eq__` keep the already-present element). -/
def parseLiteralsGo : List Str → List Literal → PState → Except PyErr (List Literal × PState)
  | [], acc, st => .ok (acc, st)
  | t :: rest, acc, st =>
    let t := pyStrip t
    if t = [] then parseLiteralsGo rest acc st
    else
      match parseLiteral t st with
      | .error e => .error e
      | .ok (l, st') =>
        parseLiteralsGo rest (if acc.any (fun x => litEq x l) then acc else acc ++ [l]) st'

/-- Embedding of `PrologString._parse_literals` (knowledgebase.py). -/
def parseLiterals (s : Str) (st : PState) : Except PyErr (List Literal × PState) :=
  parseLiteralsGo (pySplit [','] s) [] st

/-- Embedding of `PrologString._parse_clause` (knowledgebase.py). -/
def parseClause (s : Str) (st : PState) : Except PyErr (Clause × PState) :=
  match parseLiterals s st with
  | .error e => .error e
  | .ok (ls, st') => .ok (mkClause ls, st')

/-- Embedding of `PrologString._parse_rule` (knowledgebase.py):
`head, body = s.split(":-")` raises `ValueError` unless the split yields
exactly two pieces. -/
def parseRule (s : Str) (st : PState) : Except PyErr (Rule × PState) :=
  match pySplit [':', '-'] s with
  | [h, b] =>
    match parseLiteral (pyStrip h) st with
    | .error e => .error e
    | .ok (head, st') =>
      match parseLiterals (pyStrip b) st' with
      | .error e => .error e
      | .ok (body, st'') => .ok (mkRule head body, st'')
  | _ => .error .valueError

/-- Loop of `PrologString._parse`: split the input around full stops, strip
each statement, skip empty ones, parse those containing `:-` as rules and
the rest as clauses, collecting the results into a set. -/
def parseContentsGo : List Str → List Content → PState → Except PyErr (List Content × PState)
  | [], acc, st => .ok (acc, st)
  | p :: rest, acc, st =>
    let p := pyStrip p
    if p = [] then parseContentsGo rest acc st
    else if containsSeq [':', '-'] p then
      match parseRule p st with
      | .error e => .error e
      | .ok (r, st') =>
        let c := Content.rule r
        parseContentsGo rest (if acc.any (fun x => contentEq x c) then acc else acc ++ [c]) st'
    else
      match parseClause p st with
      | .error e => .error e
      | .ok (cl, st') =>
        let c := Content.clause cl
        parseContentsGo rest (if acc.any (fun x => contentEq x c) then acc else acc ++ [c]) st'

/-- Embedding of `PrologString._parse` (knowledgebase.py), threading the
parser state. -/
def parseContents (s : Str) (st : PState) : Except PyErr (List Content × PState) :=
  parseContentsGo (pySplit ['.'] s) [] st

/-- Parse a prolog-syntax string into its set of contents, starting from a
fresh `PrologString` (empty registry, allocation counter 0). -/
def pyParseChars (cs : Str) : Except PyErr (List Content) :=
  match parseContents cs ⟨0, []⟩ with
  | .error e => .error e
  | .ok (contents, _) => .ok contents

/-- `pyParseChars` on a Lean string literal. -/
def pyParse (s : String) : Except PyErr (List Content) :=
  pyParseChars s.data

/-- Embedding of the `KnowledgeBase` class of knowledgebase.py: the clause
and rule frozensets, the `_literals` registry and the two asserting
indices, all exactly as `KnowledgeBase.__init__` leaves them. -/
structure KnowledgeBase where
  clauses : List Clause
  rules : List Rule
  literals : List (Str × Literal)
  asserting_clauses : List (Str × List Clause)
  asserting_rules : List (Str × List Rule)
  deriving DecidableEq, Repr

/-- The index-building tail of `KnowledgeBase.__init__`:
`_get_asserting_clauses` and `_get_asserting_rules` over the registry
values, keyed by the literal's printed form. -/
def buildIndexes (clauses : List Clause) (rules : List Rule)
    (lits : List (Str × Literal)) : KnowledgeBase :=
  { clauses := clauses
    rules := rules
    literals := lits
    asserting_clauses :=
      lits.map (fun kv =>
        (strLit kv.2, clauses.filter (fun c => c.literals.any (fun x => litEq kv.2 x))))
    asserting_rules :=
      lits.map (fun kv => (strLit kv.2, rules.filter (fun r => litEq kv.2 r.head))) }

/-- Embedding of `KnowledgeBase.__init__` on a single string argument: parse
it as a `PrologString`, distribute the contents over the clause and rule
sets, keep the parser's literal registry, and build the indices.  No cycle
check of any kind is performed. -/
def kbFromString (s : String) : Except PyErr KnowledgeBase :=
  match parseContents s.data ⟨0, []⟩ with
  | .error e => .error e
  | .ok (contents, st) =>
    let clauses := contents.filterMap (fun c =>
      match c with
      | .clause cl => some cl
      | .rule _ => none)
    let rules := contents.filterMap (fun c =>
      match c with
      | .clause _ => none
      | .rule r => some r)
    .ok (buildIndexes clauses rules st.literals)

/-- Embedding of `KnowledgeBase._consolidate_literal`: return the registered
instance for the literal's printed form, registering the argument itself
when the form is new. -/
def consolidateLiteral (l : Literal) (reg : List (Str × Literal)) :
    Literal × List (Str × Literal) :=
  match lookupS reg (strLit l) with
  | some l' => (l', reg)
  | none => (l, reg ++ [(strLit l, l)])

/-- Embedding of `KnowledgeBase._consolidate_literals` before its final
`set(...)`: consolidate each literal in order, threading the registry. -/
def consolidateLiteralsGo : List Literal → List Literal → List (Str × Literal) →
    List Literal × List (Str × Literal)
  | [], acc, reg => (acc, reg)
  | l :: rest, acc, reg =>
    match consolidateLiteral l reg with
    | (l', reg') => consolidateLiteralsGo rest (acc ++ [l']) reg'

/-- Content loop of `KnowledgeBase.__init__` on direct `Clause`/`Rule`
arguments.  A `Clause` is consolidated and added; for a `Rule` the code
executes `self._rules.add(head, body)`, which passes two arguments to
`set.add` and therefore raises `TypeError`. -/
def kbFromContentsGo : List Content → List Clause → List (Str × Literal) →
    Except PyErr (List Clause × List (Str × Literal))
  | [], clauses, reg => .ok (clauses, reg)
  | .clause c :: rest, clauses, reg =>
    match consolidateLiteralsGo c.literals [] reg with
    | (ls, reg') =>
      let cl := mkClause (pyDedup litEq ls)
      kbFromContentsGo rest
        (if clauses.any (fun x => clauseEq x cl) then clauses else clauses ++ [cl]) reg'
  | .rule _ :: _, _, _ => .error .typeError

/-- Embedding of `KnowledgeBase.__init__` on direct `Clause`/`Rule`
arguments (the non-string branch). -/
def kbFromContents (contents : List Content) : Except PyErr KnowledgeBase :=
  match kbFromContentsGo contents [] [] with
  | .error e => .error e
  | .ok (clauses, reg) => .ok (buildIndexes clauses [] reg)

/-- The runtime value of a Python expression the query code manipulates:
a `bool`, or the bound method `case.is_supported` of some literal's case. -/
inductive PyVal where
  | bool (b : Bool)
  | boundMethod (claim : Literal)
  deriving DecidableEq, Repr

/-- Python truthiness: a bound-method object is always truthy. -/
def pyTruthy : PyVal → Bool
  | .bool b => b
  | .boundMethod _ => true

/-- Whether the literal object has had its `case` attribute set, which
`KnowledgeBase._generate_supporting_cases` does exactly for the registry
values (object identity, hence full structural equality here). -/
def litHasCase (kb : KnowledgeBase) (l : Literal) : Bool :=
  kb.literals.any (fun kv => decide (kv.2 = l))

/-- Embedding of the property `Literal.is_supported` (logic.py): it reads
`self.case` (raising `AttributeError` when the case was never set) and
evaluates `self.case.is_supported`.  Since `Case.is_supported` in
knowledgebase.py is a plain method, that attribute access produces a
bound-method object, which is cached and returned without being called. -/
def litIsSupportedProp (kb : KnowledgeBase) (l : Literal) : Except PyErr PyVal :=
  if litHasCase kb l then .ok (.boundMethod l) else .error .attributeError

/-- Body loop of the property `Rule.is_supported` (logic.py):
`if not l.is_supported: supported = False` for each body literal, where
`l.is_supported` is the value produced by `litIsSupportedProp`. -/
def ruleBodyLoop (kb : KnowledgeBase) : List Literal → Bool → Except PyErr Bool
  | [], supported => .ok supported
  | l :: rest, supported =>
    match litIsSupportedProp kb l with
    | .error e => .error e
    | .ok v => ruleBodyLoop kb rest (if pyTruthy v then supported else false)

/-- Embedding of the property `Rule.is_supported` (logic.py). -/
def ruleIsSupportedProp (kb : KnowledgeBase) (r : Rule) : Except PyErr Bool :=
  ruleBodyLoop kb r.body true

/-- Rule loop of `Case.is_supported` (knowledgebase.py): for the first
asserting rule, `r.is_supported()` evaluates the `is_supported` property
(a `bool`) and then calls it, raising `TypeError`. -/
def caseRuleLoop (kb : KnowledgeBase) : List Rule → Except PyErr Unit
  | [] => .ok ()
  | r :: _ =>
    match ruleIsSupportedProp kb r with
    | .error e => .error e
    | .ok _ => .error .typeError

/-- Embedding of the method `Case.is_supported` (knowledgebase.py), returning
the state it leaves behind on success: `(support_clauses, support_rules,
supported)`.  The asserting-clause and asserting-rule dictionaries are read
at the claim's printed form (`KeyError` when absent). -/
def caseIsSupported (kb : KnowledgeBase) (claim : Literal) :
    Except PyErr (List Clause × List Rule × Bool) :=
  match lookupS kb.asserting_clauses (strLit claim) with
  | none => .error .keyError
  | some support_clauses =>
    let supported := decide (support_clauses.length ≠ 0)
    match lookupS kb.asserting_rules (strLit claim) with
    | none => .error .keyError
    | some asserting_rules =>
      match caseRuleLoop kb asserting_rules with
      | .error e => .error e
      | .ok _ => .ok (support_clauses, [], supported)

/-- Embedding of the call `l.is_supported()` (as `KnowledgeBase.populate`
performs it): evaluate the `is_supported` property and call the resulting
value — calling a `bool` would raise `TypeError`, calling the bound method
runs `Case.is_supported` and yields its boolean result. -/
def litIsSupportedCall (kb : KnowledgeBase) (l : Literal) : Except PyErr Bool :=
  match litIsSupportedProp kb l with
  | .error e => .error e
  | .ok (.bool _) => .error .typeError
  | .ok (.boundMethod c) =>
    match caseIsSupported kb c with
    | .error e => .error e
    | .ok t => .ok t.2.2

/-- Construct a knowledge base from a string, dropping the error case. -/
def kbOf (s : String) : Option KnowledgeBase :=
  (kbFromString s).toOption

/-- Query `l.is_supported()` against the knowledge base built from `s`. -/
def queryLit (s : String) (l : Literal) : Option (Except PyErr Bool) :=
  (kbOf s).map (fun kb => litIsSupportedCall kb l)

/-- Query `l.is_supported()` for the canonical literal registered under the
given printed form in the knowledge base built from `s`. -/
def queryName (s name : String) : Option (Except PyErr Bool) :=
  (kbOf s).bind (fun kb => (lookupS kb.literals name.data).map (litIsSupportedCall kb))

/-- Run `Case.is_supported` for the canonical literal registered under the
given printed form in the knowledge base built from `s`. -/
def caseQueryName (s name : String) :
    Option (Except PyErr (List Clause × List Rule × Bool)) :=
  (kbOf s).bind (fun kb => (lookupS kb.literals name.data).map (caseIsSupported kb))

/-- A literal occurs in the knowledge base: it sits (as the very object,
hence structural equality) in some clause, or is some rule's head, or sits
in some rule's body. -/
def occursIn (kb : KnowledgeBase) (l : Literal) : Bool :=
  kb.clauses.any (fun c => c.literals.any (fun x => decide (x = l)))
    || kb.rules.any (fun r => decide (r.head = l) || r.body.any (fun x => decide (x = l)))

/-- All literal occurrences held by a content value. -/
def contentLits : Content → List Literal
  | .clause c => c.literals
  | .rule r => r.head :: r.body

/-- The registry invariant needed for canonicalization: every entry's value
prints exactly as the entry's key (so lookups by printed form recover the
registered instance). -/
def RegKeyed (reg : List (Str × Literal)) : Prop :=
  ∀ kv ∈ reg, strLit kv.2 = kv.1

/-- The stronger parser-registry invariant: every entry's key is a non-empty
token and the entry's value carries exactly the (atom, sign) that the
token denotes. -/
def RegParsed (reg : List (Str × Literal)) : Prop :=
  ∀ kv ∈ reg, kv.1 ≠ [] ∧ ((kv.2 : Literal).atom, kv.2.is_positive) = tokenVal kv.1

/-- A well-formed atom character: `[A-Za-z0-9_]`, the character set the
sources document for atoms. -/
def isWordChar (c : Char) : Bool :=
  decide (('A' ≤ c ∧ c ≤ 'Z') ∨ ('a' ≤ c ∧ c ≤ 'z') ∨ ('0' ≤ c ∧ c ≤ '9') ∨ c = '_')

/-- A well-formed atom: non-empty, over `[A-Za-z0-9_]`. -/
abbrev wfAtom (a : Str) : Prop :=
  a ≠ [] ∧ ∀ c ∈ a, isWordChar c = true

/-- A well-formed literal: its atom is well-formed. -/
abbrev wfLit (l : Literal) : Prop :=
  wfAtom l.atom

/-- Render the clause `Clause(*ls)` to prolog syntax and re-parse the text
with a fresh parser; `true` exactly when this yields one single clause that
is value-equal (`Clause.__eq__`) to the original. -/
def roundClause (ls : List Literal) : Bool :=
  match pyParseChars (strClause (mkClause ls)) with
  | .ok [.clause c'] => clauseEq c' (mkClause ls)
  | _ => false

/-- Render the rule `Rule(h, *bs)` to prolog syntax and re-parse the text
with a fresh parser; `true` exactly when this yields one single rule that
is value-equal (`Rule.__eq__`) to the original. -/
def roundRule (h : Literal) (bs : List Literal) : Bool :=
  match pyParseChars (strRule (mkRule h bs)) with
  | .ok [.rule r'] => ruleEq r' (mkRule h bs)
  | _ => false

/-- The canonical literal of the knowledge base built from `"b."`, used as a
concrete instance. -/
def bLit : Literal :=
  ⟨0, "b".data, true⟩

/-- The knowledge base `KnowledgeBase("b.")` evaluates to, written out. -/
def kbExB : KnowledgeBase :=
  { clauses := [⟨[bLit]⟩]
    rules := []
    literals := [("b".data, bLit)]
    asserting_clauses := [("b".data, [⟨[bLit]⟩])]
    asserting_rules := [("b".data, [])] }

end Amadeus

deriving instance DecidableEq for Except


namespace Amadeus

/-- C10: constructing `Literal(a)` with the polarity argument omitted (or
passed as `None`) yields a positive literal, value-equal to
`Literal(a, True)` under the equality on (atom, polarity). -/
theorem c10_literal_default_positive (id1 id2 : Nat) (atom : Str) :
    (literalInit id1 atom none).is_positive = true
      ∧ litEq (literalInit id1 atom none) (literalInit id2 atom (some true)) = true := by
  refine ⟨rfl, ?_⟩
  simp [literalInit, litEq]

/-- C9: a rule constructed with an empty body is accepted by the
constructor, and the `Rule.is_supported` property returns `True` for it
unconditionally, whatever the knowledge base. -/
theorem c9_empty_body_rule_supported (kb : KnowledgeBase) (h : Literal) :
    (mkRule h []).body = [] ∧ ruleIsSupportedProp kb (mkRule h []) = .ok true := by
  exact ⟨rfl, rfl⟩

/-- C6: the claim says constructing a `Rule` with an empty body fails with
`MalformedRuleError`; in the code `Rule.__init__` performs no check (and no
such error class exists), so a `Rule` value with an empty body is
produced. -/
theorem c6_empty_body_rule_constructed :
    mkRule bLit [] = { head := bLit, body := [] } := by
  rfl

/-- C1: the claim says a cyclic rule set makes `KnowledgeBase` construction
fail with `CyclicKnowledgeBaseError`; the code performs no cycle check (and
no such error class exists): from the text `"a :- b. b :- a."` a knowledge
base with the two rules is constructed and returned, while the direct
constructor path fails for any rule — cyclic or not — with `TypeError`
(`self._rules.add(head, body)` passes two arguments to `set.add`). -/
theorem c1_cycle_kb_constructed :
    (kbFromString "a :- b. b :- a.").map (fun kb => (kb.clauses.length, kb.rules.length))
        = .ok (0, 2)
      ∧ kbFromContents [.rule (mkRule ⟨0, "a".data, true⟩ [⟨1, "b".data, true⟩])]
        = .error .typeError := by
  exact ⟨by decide, rfl⟩

/-- C2: the claim states the recursive supported-semantics of the queries;
in the code, for the knowledge base `"b:- a."`, the literal `b` (which the
claimed semantics leaves unsupported) raises `TypeError` when queried,
because `Case.is_supported` calls the `bool` returned by the
`Rule.is_supported` property — which itself reports the rule supported
(`.ok true`) although its body literal `a` is unsupported, since the
truthy bound method `Literal.is_supported` yields is never called. -/
theorem c2_supported_query_breaks :
    queryName "b:- a." "b" = some (.error .typeError)
      ∧ (kbFromString "b:- a.").map (fun kb => kb.rules.map (ruleIsSupportedProp kb))
        = .ok [.ok true]
      ∧ queryName "b:- a." "a" = some (.ok false) := by
  exact ⟨by decide, by decide, by decide⟩

/-- C4: the claim says that for the knowledge base
`"beta. alpha, beta. beta:- alpha. gamma:- beta."` the supported queries on
`alpha`, `beta` and `gamma` all return `True`; in the code the query on
`alpha` does return `True`, but the queries on `beta` and `gamma` raise
`TypeError`, because their claims have asserting rules and
`Case.is_supported` calls the `bool` value of the `Rule.is_supported`
property. -/
theorem c4_example_queries :
    queryName "beta. alpha, beta. beta:- alpha. gamma:- beta." "alpha" = some (.ok true)
      ∧ queryName "beta. alpha, beta. beta:- alpha. gamma:- beta." "beta"
        = some (.error .typeError)
      ∧ queryName "beta. alpha, beta. beta:- alpha. gamma:- beta." "gamma"
        = some (.error .typeError) := by
  exact ⟨by decide, by decide, by decide⟩

/-- C3: the claim describes the Case of `beta` in the knowledge base
`"beta. alpha, beta. beta:- alpha. gamma:- beta."` as a set of three CCoSEs;
the `Case` class of the code never builds sets of CCoSEs at all — its
state is a flat pair of a support-clause set and a support-rule set, as the
result type of `caseIsSupported` records — and computing it for `beta`
raises `TypeError` (its asserting rule is queried as `r.is_supported()`),
while for the rule-free literal `alpha` it yields the flat pair of its one
asserting clause and an empty rule set. -/
theorem c3_case_no_ccose :
    caseQueryName "beta. alpha, beta. beta:- alpha. gamma:- beta." "beta"
        = some (.error .typeError)
      ∧ caseQueryName "beta. alpha, beta. beta:- alpha. gamma:- beta." "alpha"
        = some (.ok ([⟨[⟨1, "alpha".data, true⟩, ⟨0, "beta".data, true⟩]⟩], [], true)) := by
  exact ⟨by decide, by decide⟩

/-- C5: the claim says querying an unregistered literal fails with
`UnknownLiteralError` and querying a registered but unsupported literal
returns `False` and never raises; in the code no `UnknownLiteralError`
exists — an unregistered literal object has no `case` attribute and the
query raises `AttributeError` — and the registered, unsupported literal
`b` of the knowledge base `"b:- a."` raises `TypeError` when queried
(only the rule-free unsupported `a` yields `False`). -/
theorem c5_query_errors :
    queryLit "b:- a." ⟨99, "zeta".data, true⟩ = some (.error .attributeError)
      ∧ queryName "b:- a." "b" = some (.error .typeError)
      ∧ queryName "b:- a." "a" = some (.ok false) := by
  exact ⟨by decide, by decide, by decide⟩

/-- C8 counterexample: the round-trip claim is quantified over every Clause
value, but atoms are unchecked in the code; the clause built from the
single positive literal with atom `"a.b"` renders to `"a.b."`, which
re-parses as the two clauses `a.` and `b.` — not a value-equal Clause. -/
theorem c8_roundtrip_counterexample :
    roundClause [⟨0, "a.b".data, true⟩] = false
      ∧ pyParse "a.b."
        = .ok [.clause (mkClause [⟨0, "a".data, true⟩]),
               .clause (mkClause [⟨1, "b".data, true⟩])] := by
  exact ⟨by decide, by decide⟩
theorem lookupS_mem {α : Type} {m : List (Str × α)} {k : Str} {v : α}
    (h : lookupS m k = some v) : (k, v) ∈ m := by
  induction m with
  | nil => simp [lookupS] at h
  | cons kv rest ih =>
    obtain ⟨k', v'⟩ := kv
    by_cases hk : k' = k
    · subst hk
      simp [lookupS] at h
      simp [h]
    · simp [lookupS, hk] at h
      exact List.mem_cons_of_mem _ (ih h)

theorem lookupS_append_left {α : Type} {m : List (Str × α)} (t : List (Str × α))
    {k : Str} {v : α} (h : lookupS m k = some v) : lookupS (m ++ t) k = some v := by
  induction m with
  | nil => simp [lookupS] at h
  | cons kv rest ih =>
    obtain ⟨k', v'⟩ := kv
    by_cases hk : k' = k
    · subst hk
      simp_all [lookupS]
    · simp [lookupS, hk] at h ⊢
      exact ih h

theorem lookupS_append_new {α : Type} {m : List (Str × α)} {k : Str} (v : α)
    (h : lookupS m k = none) : lookupS (m ++ [(k, v)]) k = some v := by
  induction m with
  | nil => simp [lookupS]
  | cons kv rest ih =>
    obtain ⟨k', v'⟩ := kv
    by_cases hk : k' = k
    · simp [lookupS, hk] at h
    · simp [lookupS, hk] at h ⊢
      exact ih h

theorem strLit_tokenLit {s : Str} (id : Nat) (hs : s ≠ []) :
    strLit (tokenLit id s) = s := by
  cases s with
  | nil => exact absurd rfl hs
  | cons c rest =>
    by_cases hc : c = '~'
    · subst hc
      simp [tokenLit, strLit]
    · simp [tokenLit, strLit, hc]

theorem tokenLit_val (id : Nat) (s : Str) :
    ((tokenLit id s).atom, (tokenLit id s).is_positive) = tokenVal s := by
  cases s with
  | nil => rfl
  | cons c rest =>
    by_cases hc : c = '~' <;> simp [tokenLit, tokenVal, hc]

theorem strLit_eq_key {l : Literal} {k : Str} (hk : k ≠ [])
    (h : (l.atom, l.is_positive) = tokenVal k) : strLit l = k := by
  cases k with
  | nil => exact absurd rfl hk
  | cons c rest =>
    by_cases hc : c = '~'
    · subst hc
      simp [tokenVal] at h
      simp [strLit, h.1, h.2]
    · simp [tokenVal, hc] at h
      simp [strLit, h.1, h.2]

theorem parseLiteral_keyed {s : Str} {st : PState} {l : Literal} {st' : PState}
    (hInv : RegKeyed st.literals) (h : parseLiteral s st = .ok (l, st')) :
    RegKeyed st'.literals
      ∧ (∀ k v, lookupS st.literals k = some v → lookupS st'.literals k = some v)
      ∧ lookupS st'.literals (strLit l) = some l := by
  simp only [parseLiteral] at h
  cases hl : lookupS st.literals (pyStrip s) with
  | some l0 =>
    rw [hl] at h
    simp only [Except.ok.injEq, Prod.mk.injEq] at h
    obtain ⟨rfl, rfl⟩ := h
    refine ⟨hInv, fun _ _ hv => hv, ?_⟩
    have hmem := lookupS_mem hl
    have hkey := hInv _ hmem
    rw [hkey]
    exact hl
  | none =>
    rw [hl] at h
    cases ht : pyStrip s with
    | nil =>
      rw [ht] at h
      simp at h
    | cons c rest =>
      rw [ht] at h
      simp only [Except.ok.injEq, Prod.mk.injEq] at h
      obtain ⟨rfl, rfl⟩ := h
      have hne : (c :: rest : Str) ≠ [] := by simp
      have hkey := strLit_tokenLit st.nextId hne
      refine ⟨?_, ?_, ?_⟩
      · intro kv hkv
        rcases List.mem_append.mp hkv with hold | hnew
        · exact hInv _ hold
        · simp at hnew
          rw [hnew]
          exact hkey
      · intro k v hv
        exact lookupS_append_left _ hv
      · rw [hkey]
        rw [ht] at hl
        exact lookupS_append_new _ hl
theorem pyDedupAcc_subset {α : Type} (eq : α → α → Bool) :
    ∀ (xs seen : List α) (x : α), x ∈ pyDedupAcc eq seen xs → x ∈ xs := by
  intro xs
  induction xs with
  | nil =>
    intro seen x hx
    simp [pyDedupAcc] at hx
  | cons y ys ih =>
    intro seen x hx
    simp only [pyDedupAcc] at hx
    by_cases hA : seen.any (fun s => eq s y) = true
    · simp [hA] at hx
      exact List.mem_cons_of_mem _ (ih _ _ hx)
    · simp [hA] at hx
      rcases hx with rfl | hx
      · exact List.mem_cons_self _ _
      · exact List.mem_cons_of_mem _ (ih _ _ hx)

theorem pyDedup_subset {α : Type} (eq : α → α → Bool) (xs : List α) :
    ∀ x ∈ pyDedup eq xs, x ∈ xs :=
  fun x hx => pyDedupAcc_subset eq xs [] x hx

theorem parseLiteralsGo_keyed :
    ∀ (toks : List Str) (acc : List Literal) (st : PState) (out : List Literal)
      (st' : PState),
    RegKeyed st.literals →
    (∀ l ∈ acc, lookupS st.literals (strLit l) = some l) →
    parseLiteralsGo toks acc st = .ok (out, st') →
    RegKeyed st'.literals
      ∧ (∀ k v, lookupS st.literals k = some v → lookupS st'.literals k = some v)
      ∧ (∀ l ∈ out, lookupS st'.literals (strLit l) = some l) := by
  intro toks
  induction toks with
  | nil =>
    intro acc st out st' hInv hacc h
    simp only [parseLiteralsGo, Except.ok.injEq, Prod.mk.injEq] at h
    obtain ⟨rfl, rfl⟩ := h
    exact ⟨hInv, fun _ _ hv => hv, hacc⟩
  | cons t rest ih =>
    intro acc st out st' hInv hacc h
    simp only [parseLiteralsGo] at h
    by_cases hT : pyStrip t = []
    · rw [if_pos hT] at h
      exact ih acc st out st' hInv hacc h
    · rw [if_neg hT] at h
      cases hpl : parseLiteral (pyStrip t) st with
      | error e =>
        rw [hpl] at h
        simp at h
      | ok p =>
        obtain ⟨l, st1⟩ := p
        rw [hpl] at h
        obtain ⟨hInv1, hmono1, hbound1⟩ := parseLiteral_keyed hInv hpl
        have hacc1 : ∀ x ∈ (if acc.any (fun a => litEq a l) then acc else acc ++ [l]),
            lookupS st1.literals (strLit x) = some x := by
          intro x hx
          by_cases hA : acc.any (fun a => litEq a l) = true
          · rw [if_pos hA] at hx
            exact hmono1 _ _ (hacc x hx)
          · simp only [hA, if_false, Bool.false_eq_true] at hx
            rcases List.mem_append.mp hx with h1 | h2
            · exact hmono1 _ _ (hacc x h1)
            · simp at h2
              subst h2
              exact hbound1
        obtain ⟨hInv2, hmono2, hout⟩ := ih _ _ _ _ hInv1 hacc1 h
        exact ⟨hInv2, fun k v hv => hmono2 k v (hmono1 k v hv), hout⟩

theorem parseLiterals_keyed {s : Str} {st : PState} {out : List Literal} {st' : PState}
    (hInv : RegKeyed st.literals) (h : parseLiterals s st = .ok (out, st')) :
    RegKeyed st'.literals
      ∧ (∀ k v, lookupS st.literals k = some v → lookupS st'.literals k = some v)
      ∧ (∀ l ∈ out, lookupS st'.literals (strLit l) = some l) :=
  parseLiteralsGo_keyed _ _ _ _ _ hInv (by intro l hl; simp at hl) h

theorem parseClause_keyed {s : Str} {st : PState} {c : Clause} {st' : PState}
    (hInv : RegKeyed st.literals) (h : parseClause s st = .ok (c, st')) :
    RegKeyed st'.literals
      ∧ (∀ k v, lookupS st.literals k = some v → lookupS st'.literals k = some v)
      ∧ (∀ l ∈ c.literals, lookupS st'.literals (strLit l) = some l) := by
  simp only [parseClause] at h
  cases hpl : parseLiterals s st with
  | error e =>
    rw [hpl] at h
    simp at h
  | ok p =>
    obtain ⟨ls, st1⟩ := p
    rw [hpl] at h
    simp only [Except.ok.injEq, Prod.mk.injEq] at h
    obtain ⟨rfl, rfl⟩ := h
    obtain ⟨hInv1, hmono1, hbound⟩ := parseLiterals_keyed hInv hpl
    exact ⟨hInv1, hmono1, fun l hl => hbound l (pyDedup_subset _ _ l hl)⟩

theorem parseRule_keyed {s : Str} {st : PState} {r : Rule} {st' : PState}
    (hInv : RegKeyed st.literals) (h : parseRule s st = .ok (r, st')) :
    RegKeyed st'.literals
      ∧ (∀ k v, lookupS st.literals k = some v → lookupS st'.literals k = some v)
      ∧ (∀ l ∈ r.head :: r.body, lookupS st'.literals (strLit l) = some l) := by
  simp only [parseRule] at h
  split at h
  next x0 a b hsp =>
    cases hh : parseLiteral (pyStrip a) st with
    | error e =>
      rw [hh] at h
      simp at h
    | ok p =>
      obtain ⟨head, st1⟩ := p
      rw [hh] at h
      simp only [] at h
      cases hb : parseLiterals (pyStrip b) st1 with
      | error e =>
        rw [hb] at h
        simp at h
      | ok q =>
        obtain ⟨body, st2⟩ := q
        rw [hb] at h
        simp only [Except.ok.injEq, Prod.mk.injEq] at h
        obtain ⟨rfl, rfl⟩ := h
        obtain ⟨hInv1, hmono1, hbound1⟩ := parseLiteral_keyed hInv hh
        obtain ⟨hInv2, hmono2, hbound2⟩ := parseLiterals_keyed hInv1 hb
        refine ⟨hInv2, fun k v hv => hmono2 k v (hmono1 k v hv), ?_⟩
        intro l hl
        rcases List.mem_cons.mp hl with rfl | hl
        · exact hmono2 _ _ hbound1
        · exact hbound2 l (pyDedup_subset _ _ l hl)
  next =>
    simp at h
theorem parseContentsGo_keyed :
    ∀ (parts : List Str) (acc : List Content) (st : PState) (out : List Content)
      (st' : PState),
    RegKeyed st.literals →
    (∀ c ∈ acc, ∀ l ∈ contentLits c, lookupS st.literals (strLit l) = some l) →
    parseContentsGo parts acc st = .ok (out, st') →
    RegKeyed st'.literals
      ∧ (∀ k v, lookupS st.literals k = some v → lookupS st'.literals k = some v)
      ∧ (∀ c ∈ out, ∀ l ∈ contentLits c, lookupS st'.literals (strLit l) = some l) := by
  intro parts
  induction parts with
  | nil =>
    intro acc st out st' hInv hacc h
    simp only [parseContentsGo, Except.ok.injEq, Prod.mk.injEq] at h
    obtain ⟨rfl, rfl⟩ := h
    exact ⟨hInv, fun _ _ hv => hv, hacc⟩
  | cons p rest ih =>
    intro acc st out st' hInv hacc h
    simp only [parseContentsGo] at h
    by_cases hP : pyStrip p = []
    · rw [if_pos hP] at h
      exact ih acc st out st' hInv hacc h
    · rw [if_neg hP] at h
      by_cases hR : containsSeq [':', '-'] (pyStrip p) = true
      · rw [if_pos hR] at h
        cases hpr : parseRule (pyStrip p) st with
        | error e =>
          rw [hpr] at h
          simp at h
        | ok q =>
          obtain ⟨r, st1⟩ := q
          rw [hpr] at h
          simp only [] at h
          obtain ⟨hInv1, hmono1, hbound1⟩ := parseRule_keyed hInv hpr
          have hacc1 : ∀ c ∈ (if acc.any (fun x => contentEq x (Content.rule r)) then acc
                else acc ++ [Content.rule r]),
              ∀ l ∈ contentLits c, lookupS st1.literals (strLit l) = some l := by
            intro c hc l hl
            by_cases hA : acc.any (fun x => contentEq x (Content.rule r)) = true
            · rw [if_pos hA] at hc
              exact hmono1 _ _ (hacc c hc l hl)
            · simp only [hA, if_false, Bool.false_eq_true] at hc
              rcases List.mem_append.mp hc with h1 | h2
              · exact hmono1 _ _ (hacc c h1 l hl)
              · simp at h2
                subst h2
                exact hbound1 l hl
          obtain ⟨hInv2, hmono2, hout⟩ := ih _ _ _ _ hInv1 hacc1 h
          exact ⟨hInv2, fun k v hv => hmono2 k v (hmono1 k v hv), hout⟩
      · rw [if_neg hR] at h
        cases hpc : parseClause (pyStrip p) st with
        | error e =>
          rw [hpc] at h
          simp at h
        | ok q =>
          obtain ⟨cl, st1⟩ := q
          rw [hpc] at h
          simp only [] at h
          obtain ⟨hInv1, hmono1, hbound1⟩ := parseClause_keyed hInv hpc
          have hacc1 : ∀ c ∈ (if acc.any (fun x => contentEq x (Content.clause cl)) then acc
                else acc ++ [Content.clause cl]),
              ∀ l ∈ contentLits c, lookupS st1.literals (strLit l) = some l := by
            intro c hc l hl
            by_cases hA : acc.any (fun x => contentEq x (Content.clause cl)) = true
            · rw [if_pos hA] at hc
              exact hmono1 _ _ (hacc c hc l hl)
            · simp only [hA, if_false, Bool.false_eq_true] at hc
              rcases List.mem_append.mp hc with h1 | h2
              · exact hmono1 _ _ (hacc c h1 l hl)
              · simp at h2
                subst h2
                exact hbound1 l hl
          obtain ⟨hInv2, hmono2, hout⟩ := ih _ _ _ _ hInv1 hacc1 h
          exact ⟨hInv2, fun k v hv => hmono2 k v (hmono1 k v hv), hout⟩

theorem kbFromString_keyed {s : String} {kb : KnowledgeBase}
    (h : kbFromString s = .ok kb) :
    ∀ l, occursIn kb l = true → lookupS kb.literals (strLit l) = some l := by
  simp only [kbFromString] at h
  cases hpc : parseContents s.data ⟨0, []⟩ with
  | error e =>
    rw [hpc] at h
    simp at h
  | ok q =>
    obtain ⟨contents, st⟩ := q
    rw [hpc] at h
    simp only [Except.ok.injEq] at h
    subst h
    have hInv0 : RegKeyed (⟨0, []⟩ : PState).literals := by
      intro kv hkv
      simp at hkv
    have hacc0 : ∀ c ∈ ([] : List Content), ∀ l ∈ contentLits c,
        lookupS (⟨0, []⟩ : PState).literals (strLit l) = some l := by
      intro c hc
      simp at hc
    obtain ⟨_, _, hbound⟩ := parseContentsGo_keyed _ _ _ _ _ hInv0 hacc0 hpc
    intro l hl
    simp only [occursIn, buildIndexes, Bool.or_eq_true, List.any_eq_true,
      decide_eq_true_eq] at hl
    rcases hl with ⟨c, hc, x, hx, rfl⟩ | ⟨r, hr, hhead⟩
    · have hmem := List.mem_filterMap.mp hc
      obtain ⟨content, hcontent, heq⟩ := hmem
      cases content with
      | clause cl =>
        simp at heq
        subst heq
        exact hbound _ hcontent x hx
      | rule _ => simp at heq
    · have hmem := List.mem_filterMap.mp hr
      obtain ⟨content, hcontent, heq⟩ := hmem
      cases content with
      | clause _ => simp at heq
      | rule r0 =>
        simp at heq
        subst heq
        rcases hhead with rfl | ⟨x, hx, rfl⟩
        · exact hbound _ hcontent r0.head (List.mem_cons_self _ _)
        · exact hbound _ hcontent x (List.mem_cons_of_mem _ hx)
theorem consolidateLiteral_keyed {l : Literal} {reg : List (Str × Literal)}
    (hInv : RegKeyed reg) :
    RegKeyed (consolidateLiteral l reg).2
      ∧ (∀ k v, lookupS reg k = some v → lookupS (consolidateLiteral l reg).2 k = some v)
      ∧ lookupS (consolidateLiteral l reg).2 (strLit (consolidateLiteral l reg).1)
        = some (consolidateLiteral l reg).1 := by
  simp only [consolidateLiteral]
  cases hl : lookupS reg (strLit l) with
  | some l0 =>
    simp only []
    refine ⟨hInv, fun _ _ hv => hv, ?_⟩
    have hmem := lookupS_mem hl
    have hkey := hInv _ hmem
    rw [hkey]
    exact hl
  | none =>
    simp only []
    refine ⟨?_, ?_, ?_⟩
    · intro kv hkv
      rcases List.mem_append.mp hkv with hold | hnew
      · exact hInv _ hold
      · simp at hnew
        rw [hnew]
    · intro k v hv
      exact lookupS_append_left _ hv
    · exact lookupS_append_new _ hl

theorem consolidateLiteralsGo_keyed :
    ∀ (ls acc : List Literal) (reg : List (Str × Literal)),
    RegKeyed reg →
    (∀ x ∈ acc, lookupS reg (strLit x) = some x) →
    RegKeyed (consolidateLiteralsGo ls acc reg).2
      ∧ (∀ k v, lookupS reg k = some v →
          lookupS (consolidateLiteralsGo ls acc reg).2 k = some v)
      ∧ (∀ x ∈ (consolidateLiteralsGo ls acc reg).1,
          lookupS (consolidateLiteralsGo ls acc reg).2 (strLit x) = some x) := by
  intro ls
  induction ls with
  | nil =>
    intro acc reg hInv hacc
    simp only [consolidateLiteralsGo]
    exact ⟨hInv, fun _ _ hv => hv, hacc⟩
  | cons l rest ih =>
    intro acc reg hInv hacc
    simp only [consolidateLiteralsGo]
    obtain ⟨hInv1, hmono1, hbound1⟩ := @consolidateLiteral_keyed l _ hInv
    have hacc1 : ∀ x ∈ acc ++ [(consolidateLiteral l reg).1],
        lookupS (consolidateLiteral l reg).2 (strLit x) = some x := by
      intro x hx
      rcases List.mem_append.mp hx with h1 | h2
      · exact hmono1 _ _ (hacc x h1)
      · simp at h2
        subst h2
        exact hbound1
    obtain ⟨hInv2, hmono2, hout⟩ := ih _ _ hInv1 hacc1
    exact ⟨hInv2, fun k v hv => hmono2 k v (hmono1 k v hv), hout⟩

theorem kbFromContentsGo_keyed :
    ∀ (contents : List Content) (clauses : List Clause) (reg : List (Str × Literal))
      (outCl : List Clause) (outReg : List (Str × Literal)),
    RegKeyed reg →
    (∀ c ∈ clauses, ∀ l ∈ c.literals, lookupS reg (strLit l) = some l) →
    kbFromContentsGo contents clauses reg = .ok (outCl, outReg) →
    RegKeyed outReg
      ∧ (∀ c ∈ outCl, ∀ l ∈ c.literals, lookupS outReg (strLit l) = some l) := by
  intro contents
  induction contents with
  | nil =>
    intro clauses reg outCl outReg hInv hcl h
    simp only [kbFromContentsGo, Except.ok.injEq, Prod.mk.injEq] at h
    obtain ⟨rfl, rfl⟩ := h
    exact ⟨hInv, hcl⟩
  | cons content rest ih =>
    intro clauses reg outCl outReg hInv hcl h
    cases content with
    | rule r =>
      simp [kbFromContentsGo] at h
    | clause c =>
      simp only [kbFromContentsGo] at h
      obtain ⟨hInv1, hmono1, hbound1⟩ :=
        consolidateLiteralsGo_keyed c.literals [] reg hInv (by intro x hx; simp at hx)
      have hcl1 : ∀ c0 ∈ (if clauses.any (fun x =>
            clauseEq x (mkClause (pyDedup litEq (consolidateLiteralsGo c.literals [] reg).1)))
            then clauses
            else clauses ++ [mkClause (pyDedup litEq (consolidateLiteralsGo c.literals [] reg).1)]),
          ∀ l ∈ c0.literals,
          lookupS (consolidateLiteralsGo c.literals [] reg).2 (strLit l) = some l := by
        intro c0 hc0 l hl
        by_cases hA : clauses.any (fun x =>
            clauseEq x (mkClause (pyDedup litEq (consolidateLiteralsGo c.literals [] reg).1))) = true
        · rw [if_pos hA] at hc0
          exact hmono1 _ _ (hcl c0 hc0 l hl)
        · simp only [hA, if_false, Bool.false_eq_true] at hc0
          rcases List.mem_append.mp hc0 with h1 | h2
          · exact hmono1 _ _ (hcl c0 h1 l hl)
          · simp at h2
            subst h2
            have hl2 := pyDedup_subset litEq _ l hl
            have hl3 := pyDedup_subset litEq _ l hl2
            exact hbound1 l hl3
      exact ih _ _ _ _ hInv1 hcl1 h

theorem kbFromContents_keyed {contents : List Content} {kb : KnowledgeBase}
    (h : kbFromContents contents = .ok kb) :
    ∀ l, occursIn kb l = true → lookupS kb.literals (strLit l) = some l := by
  simp only [kbFromContents] at h
  cases hgo : kbFromContentsGo contents [] [] with
  | error e =>
    rw [hgo] at h
    simp at h
  | ok q =>
    obtain ⟨clauses, reg⟩ := q
    rw [hgo] at h
    simp only [Except.ok.injEq] at h
    subst h
    obtain ⟨_, hbound⟩ := kbFromContentsGo_keyed contents [] [] clauses reg
      (by intro kv hkv; simp at hkv) (by intro c hc; simp at hc) hgo
    intro l hl
    simp only [occursIn, buildIndexes, Bool.or_eq_true, List.any_eq_true,
      decide_eq_true_eq] at hl
    rcases hl with ⟨c, hc, x, hx, rfl⟩ | ⟨r, hr, _⟩
    · exact hbound c hc x hx
    · simp at hr

theorem litEq_strLit {l1 l2 : Literal} (h : litEq l1 l2 = true) : strLit l1 = strLit l2 := by
  simp only [litEq, decide_eq_true_eq] at h
  simp [strLit, h.1, h.2]

/-- C7: in every successfully constructed KnowledgeBase — built from a
prolog-syntax string or from direct Clause/Rule arguments — every literal
occurrence in any clause or rule is the very instance registered in the
canonical-literal registry under its printed form, and any two occurrences
that are equal as (atom, polarity) values are one and the same instance. -/
theorem c7_canonicalization_total :
    (∀ (s : String) (kb : KnowledgeBase), kbFromString s = .ok kb →
      (∀ l, occursIn kb l = true → lookupS kb.literals (strLit l) = some l)
        ∧ ∀ l1 l2, occursIn kb l1 = true → occursIn kb l2 = true →
            litEq l1 l2 = true → l1 = l2)
      ∧ (∀ (contents : List Content) (kb : KnowledgeBase),
          kbFromContents contents = .ok kb →
        (∀ l, occursIn kb l = true → lookupS kb.literals (strLit l) = some l)
          ∧ ∀ l1 l2, occursIn kb l1 = true → occursIn kb l2 = true →
              litEq l1 l2 = true → l1 = l2) := by
  constructor
  · intro s kb h
    have hbound := kbFromString_keyed h
    refine ⟨hbound, ?_⟩
    intro l1 l2 h1 h2 he
    have e1 := hbound l1 h1
    have e2 := hbound l2 h2
    rw [litEq_strLit he] at e1
    rw [e1] at e2
    exact (Option.some.injEq _ _).mp e2
  · intro contents kb h
    have hbound := kbFromContents_keyed h
    refine ⟨hbound, ?_⟩
    intro l1 l2 h1 h2 he
    have e1 := hbound l1 h1
    have e2 := hbound l2 h2
    rw [litEq_strLit he] at e1
    rw [e1] at e2
    exact (Option.some.injEq _ _).mp e2

/-- Witness for C7 at the concrete knowledge base `KnowledgeBase("b.")`. -/
theorem c7_canonicalization_witness :
    lookupS kbExB.literals (strLit bLit) = some bLit :=
  (c7_canonicalization_total.1 "b." kbExB (by decide)).1 bLit (by decide)
theorem isPre_append_self : ∀ (sep b : Str), isPre sep (sep ++ b) = true := by
  intro sep
  induction sep with
  | nil => intro b; rfl
  | cons a sr ih =>
    intro b
    simp only [List.cons_append, isPre, decide_eq_true_eq]
    simp [ih b]

theorem isPre_nil_false (s0 : Char) (sr : Str) : isPre (s0 :: sr) [] = false := rfl

theorem isPre_head_ne {s0 c : Char} (sr cr : Str) (h : s0 ≠ c) :
    isPre (s0 :: sr) (c :: cr) = false := by
  simp [isPre, h]

theorem pySplitFuel_irrel (sep : Str) :
    ∀ (f1 : Nat) (cs : Str) (f2 : Nat), cs.length < f1 → cs.length < f2 →
    pySplitFuel sep f1 cs = pySplitFuel sep f2 cs := by
  intro f1
  induction f1 with
  | zero =>
    intro cs f2 h1 _
    exact absurd h1 (Nat.not_lt_zero _)
  | succ g ih =>
    intro cs f2 h1 h2
    cases f2 with
    | zero => exact absurd h2 (Nat.not_lt_zero _)
    | succ g2 =>
      simp only [pySplitFuel]
      by_cases hsep : sep = []
      · simp [hsep]
      · rw [if_neg hsep, if_neg hsep]
        by_cases hpre : isPre sep cs = true
        · rw [if_pos hpre, if_pos hpre]
          have hcs : cs ≠ [] := by
            intro hnil
            subst hnil
            cases sep with
            | nil => exact hsep rfl
            | cons s0 sr => rw [isPre_nil_false] at hpre; exact Bool.false_ne_true hpre
          have hsl : 1 ≤ sep.length := by
            cases sep with
            | nil => exact absurd rfl hsep
            | cons s0 sr => simp
          have hcl : 1 ≤ cs.length := by
            cases cs with
            | nil => exact absurd rfl hcs
            | cons c r => simp
          congr 1
          apply ih
          · simp only [List.length_drop]
            omega
          · simp only [List.length_drop]
            omega
        · rw [if_neg hpre, if_neg hpre]
          cases cs with
          | nil => rfl
          | cons c rest =>
            have hr := ih rest g2 (by simp at h1; omega) (by simp at h2; omega)
            simp only []
            rw [hr]

theorem pySplit_nil_sep (s0 : Char) (sr : Str) : pySplit (s0 :: sr) [] = [[]] := by
  simp [pySplit, pySplitFuel, isPre_nil_false]

theorem pySplitFuel_no_occur {s0 : Char} {sr : Str} :
    ∀ (fuel : Nat) (cs : Str), cs.length < fuel → s0 ∉ cs →
    pySplitFuel (s0 :: sr) fuel cs = [cs] := by
  intro fuel
  induction fuel with
  | zero =>
    intro cs h1 _
    exact absurd h1 (Nat.not_lt_zero _)
  | succ g ih =>
    intro cs h1 hmem
    simp only [pySplitFuel]
    rw [if_neg (by simp : ¬((s0 :: sr : Str) = []))]
    have hpre : isPre (s0 :: sr) cs = false := by
      cases cs with
      | nil => exact isPre_nil_false s0 sr
      | cons c rest =>
        have : s0 ≠ c := fun he => hmem (he ▸ List.mem_cons_self c rest)
        exact isPre_head_ne _ _ this
    rw [if_neg (by simp [hpre])]
    cases cs with
    | nil => rfl
    | cons c rest =>
      have hrest : pySplitFuel (s0 :: sr) g rest = [rest] := by
        apply ih
        · simp at h1
          omega
        · exact fun hr => hmem (List.mem_cons_of_mem _ hr)
      simp only []
      rw [hrest]

theorem pySplit_no_occur {s0 : Char} {sr cs : Str} (h : s0 ∉ cs) :
    pySplit (s0 :: sr) cs = [cs] :=
  pySplitFuel_no_occur _ cs (Nat.lt_succ_self _) h

theorem pySplitFuel_append_sep {sep b : Str} (hsep : sep ≠ []) :
    ∀ (a : Str) (fuel : Nat), (a ++ sep ++ b).length < fuel →
    (∀ c ∈ a, c ∉ sep) →
    pySplitFuel sep fuel (a ++ sep ++ b) = a :: pySplit sep b := by
  intro a
  induction a with
  | nil =>
    intro fuel h1 _
    cases fuel with
    | zero => exact absurd h1 (Nat.not_lt_zero _)
    | succ g =>
      simp only [List.nil_append] at h1 ⊢
      simp only [pySplitFuel]
      rw [if_neg hsep, if_pos (isPre_append_self sep b)]
      have hdrop : (sep ++ b).drop sep.length = b := List.drop_left sep b
      rw [hdrop]
      have hsl : 1 ≤ sep.length := by
        cases sep with
        | nil => exact absurd rfl hsep
        | cons s0 sr => simp
      have : pySplitFuel sep g b = pySplit sep b := by
        apply pySplitFuel_irrel
        · simp at h1
          omega
        · exact Nat.lt_succ_self _
      rw [this]
  | cons x a' ih =>
    intro fuel h1 hmem
    cases fuel with
    | zero => exact absurd h1 (Nat.not_lt_zero _)
    | succ g =>
      have hx : x ∉ sep := hmem x (List.mem_cons_self _ _)
      have hpre : isPre sep (x :: (a' ++ (sep ++ b))) = false := by
        cases sep with
        | nil => exact absurd rfl hsep
        | cons s0 sr =>
          have : s0 ≠ x := fun he => hx (he ▸ List.mem_cons_self s0 sr)
          exact isPre_head_ne _ _ this
      have hshape : ((x :: a') ++ sep ++ b : Str) = x :: (a' ++ (sep ++ b)) := by
        simp
      rw [hshape]
      simp only [pySplitFuel]
      rw [if_neg hsep, if_neg (by simp [hpre])]
      have hrec : pySplitFuel sep g (a' ++ (sep ++ b)) = a' :: pySplit sep b := by
        rw [← List.append_assoc]
        apply ih
        · simp at h1 ⊢
          omega
        · exact fun c hc => hmem c (List.mem_cons_of_mem _ hc)
      rw [hrec]

theorem pySplit_append_sep {sep a b : Str} (hsep : sep ≠ [])
    (hmem : ∀ c ∈ a, c ∉ sep) :
    pySplit sep (a ++ sep ++ b) = a :: pySplit sep b :=
  pySplitFuel_append_sep hsep a _ (Nat.lt_succ_self _) hmem

theorem pySplitFuel_cons_not_pre {sep : Str} {c : Char} {cs : Str} {g : Nat}
    (hsep : sep ≠ []) (hpre : isPre sep (c :: cs) = false) :
    pySplitFuel sep (g + 1) (c :: cs) =
      match pySplitFuel sep g cs with
      | [] => [[c]]
      | p :: ps => (c :: p) :: ps := by
  simp only [pySplitFuel]
  rw [if_neg hsep, if_neg (by simp [hpre])]

theorem pySplit_cons_single {s0 c : Char} {cs p : Str} {ps : List Str}
    (hc : c ≠ s0) (h : pySplit [s0] cs = p :: ps) :
    pySplit [s0] (c :: cs) = (c :: p) :: ps := by
  have hpre : isPre [s0] (c :: cs) = false := isPre_head_ne _ _ (fun he => hc he.symm)
  show pySplitFuel [s0] ((c :: cs).length + 1) (c :: cs) = (c :: p) :: ps
  rw [show (c :: cs).length + 1 = (cs.length + 1) + 1 by simp]
  rw [pySplitFuel_cons_not_pre (by simp) hpre]
  rw [show pySplitFuel [s0] (cs.length + 1) cs = p :: ps from h]

theorem containsSeq_of_isPre {sep cs : Str} (h : isPre sep cs = true) :
    containsSeq sep cs = true := by
  cases cs with
  | nil => simpa [containsSeq] using h
  | cons c rest => simp [containsSeq, h]

theorem containsSeq_tail {sep : Str} (c : Char) {cs : Str}
    (h : containsSeq sep cs = true) : containsSeq sep (c :: cs) = true := by
  simp [containsSeq, h]

theorem containsSeq_append_sep (s0 : Char) (sr y : Str) :
    ∀ x : Str, containsSeq (s0 :: sr) (x ++ ((s0 :: sr) ++ y)) = true := by
  intro x
  induction x with
  | nil =>
    simp only [List.nil_append]
    exact containsSeq_of_isPre (isPre_append_self _ _)
  | cons x' xs' ih =>
    simp only [List.cons_append]
    exact containsSeq_tail _ ih

theorem containsSeq_false_of_notMem {s0 : Char} {sr cs : Str} (h : s0 ∉ cs) :
    containsSeq (s0 :: sr) cs = false := by
  induction cs with
  | nil => rfl
  | cons c rest ih =>
    simp only [containsSeq]
    have hne : s0 ≠ c := fun he => h (he ▸ List.mem_cons_self c rest)
    rw [isPre_head_ne _ _ hne, ih (fun hr => h (List.mem_cons_of_mem _ hr))]
    rfl
theorem head?_append_left {α : Type} {l1 : List α} (l2 : List α) (h : l1 ≠ []) :
    (l1 ++ l2).head? = l1.head? := by
  cases l1 with
  | nil => exact absurd rfl h
  | cons a t => rfl

theorem reverse_head?_eq_getLast? {α : Type} (l : List α) :
    l.reverse.head? = l.getLast? := by
  induction l with
  | nil => rfl
  | cons a l ih =>
    cases l with
    | nil => rfl
    | cons b t =>
      rw [List.reverse_cons]
      rw [head?_append_left _ (by simp)]
      rw [ih]
      rw [List.getLast?_cons_cons]

theorem mem_of_getLast?_eq {α : Type} {l : List α} {x : α} (h : l.getLast? = some x) :
    x ∈ l := by
  rw [← reverse_head?_eq_getLast?] at h
  cases hrev : l.reverse with
  | nil =>
    rw [hrev] at h
    simp at h
  | cons a t =>
    rw [hrev] at h
    simp at h
    exact List.mem_reverse.mp (by rw [hrev, ← h]; exact List.mem_cons_self _ _)

theorem dropWhile_eq_self_of_head {α : Type} (p : α → Bool) (l : List α)
    (h : ∀ x, l.head? = some x → p x = false) : l.dropWhile p = l := by
  cases l with
  | nil => rfl
  | cons a t =>
    rw [List.dropWhile_cons]
    rw [h a rfl]
    simp

theorem pyStrip_nil : pyStrip [] = [] := rfl

theorem pyStrip_cons_space {c : Char} {cs : Str} (h : isPySpace c = true) :
    pyStrip (c :: cs) = pyStrip cs := by
  simp only [pyStrip, List.dropWhile_cons, h]
  simp

theorem pyStrip_eq_self {cs : Str}
    (hh : ∀ x, cs.head? = some x → isPySpace x = false)
    (hl : ∀ x, cs.getLast? = some x → isPySpace x = false) : pyStrip cs = cs := by
  unfold pyStrip
  rw [dropWhile_eq_self_of_head isPySpace cs hh]
  rw [dropWhile_eq_self_of_head isPySpace cs.reverse
    (fun x hx => hl x (by rw [← reverse_head?_eq_getLast?]; exact hx))]
  exact List.reverse_reverse cs

theorem pyStrip_append_space {xs : Str}
    (hh : ∀ x, xs.head? = some x → isPySpace x = false)
    (hl : ∀ x, xs.getLast? = some x → isPySpace x = false) :
    pyStrip (xs ++ [' ']) = xs := by
  cases xs with
  | nil => rfl
  | cons a t =>
    unfold pyStrip
    rw [dropWhile_eq_self_of_head isPySpace ((a :: t) ++ [' ']) (by
      intro x hx
      simp only [List.cons_append, List.head?_cons, Option.some.injEq] at hx
      subst hx
      exact hh a rfl)]
    rw [show ((a :: t) ++ [' '] : Str).reverse = ' ' :: (a :: t).reverse by
      rw [List.reverse_append]; rfl]
    rw [List.dropWhile_cons]
    rw [show isPySpace ' ' = true by rfl]
    simp only [if_true]
    rw [dropWhile_eq_self_of_head isPySpace (a :: t).reverse (fun x hx =>
      hl x (by rw [← reverse_head?_eq_getLast?]; exact hx))]
    exact List.reverse_reverse _
theorem isWordChar_not_space {c : Char} (h : isWordChar c = true) : isPySpace c = false := by
  by_contra hc
  rw [Bool.not_eq_false] at hc
  simp only [isPySpace, decide_eq_true_eq] at hc
  rcases hc with rfl | rfl | rfl | rfl | rfl | rfl <;> exact absurd h (by decide)

theorem isWordChar_ne (c : Char) (h : isWordChar c = true) :
    c ≠ '.' ∧ c ≠ ',' ∧ c ≠ ':' ∧ c ≠ '-' ∧ c ≠ '~' := by
  refine ⟨?_, ?_, ?_, ?_, ?_⟩ <;> intro he <;> subst he <;> exact absurd h (by decide)

theorem strLit_ne_nil {l : Literal} (h : wfLit l) : strLit l ≠ [] := by
  obtain ⟨hne, _⟩ := h
  unfold strLit
  by_cases hp : l.is_positive <;> simp [hp, hne]

theorem strLit_chars {l : Literal} (h : wfLit l) :
    ∀ c ∈ strLit l, c = '~' ∨ isWordChar c = true := by
  obtain ⟨_, hw⟩ := h
  intro c hc
  unfold strLit at hc
  by_cases hp : l.is_positive
  · rw [if_pos hp] at hc
    exact Or.inr (hw c hc)
  · rw [if_neg hp] at hc
    rcases List.mem_cons.mp hc with rfl | hc
    · exact Or.inl rfl
    · exact Or.inr (hw c hc)

theorem strLit_head_not_space {l : Literal} (h : wfLit l) :
    ∀ x, (strLit l).head? = some x → isPySpace x = false := by
  intro x hx
  obtain ⟨hne, hw⟩ := h
  unfold strLit at hx
  by_cases hp : l.is_positive
  · rw [if_pos hp] at hx
    cases ha : l.atom with
    | nil => exact absurd ha hne
    | cons a t =>
      rw [ha] at hx
      simp only [List.head?_cons, Option.some.injEq] at hx
      have haw := hw a (by rw [ha]; exact List.mem_cons_self a t)
      rw [← hx]
      exact isWordChar_not_space haw
  · rw [if_neg hp] at hx
    simp only [List.head?_cons, Option.some.injEq] at hx
    rw [← hx]
    decide

theorem strLit_getLast_word {l : Literal} (h : wfLit l) :
    ∀ x, (strLit l).getLast? = some x → isWordChar x = true := by
  intro x hx
  obtain ⟨hne, hw⟩ := h
  unfold strLit at hx
  by_cases hp : l.is_positive
  · rw [if_pos hp] at hx
    exact hw x (mem_of_getLast?_eq hx)
  · rw [if_neg hp] at hx
    rw [show ('~' :: l.atom : Str) = ['~'] ++ l.atom from rfl] at hx
    rw [List.getLast?_append_of_ne_nil _ hne] at hx
    exact hw x (mem_of_getLast?_eq hx)

theorem tokenVal_strLit {l : Literal} (h : wfLit l) :
    tokenVal (strLit l) = (l.atom, l.is_positive) := by
  obtain ⟨hne, hw⟩ := h
  unfold strLit
  by_cases hp : l.is_positive
  · rw [if_pos hp]
    cases ha : l.atom with
    | nil => exact absurd ha hne
    | cons a t =>
      have haw := hw a (by rw [ha]; exact List.mem_cons_self a t)
      have hane : a ≠ '~' := (isWordChar_ne a haw).2.2.2.2
      simp [tokenVal, hane, hp, ha]
  · rw [if_neg hp]
    rw [Bool.not_eq_true] at hp
    simp [tokenVal, hp]

theorem pyStrip_strLit {l : Literal} (h : wfLit l) : pyStrip (strLit l) = strLit l :=
  pyStrip_eq_self (strLit_head_not_space h)
    (fun x hx => isWordChar_not_space (strLit_getLast_word h x hx))

theorem litEq_iff {a b : Literal} :
    litEq a b = true ↔ a.atom = b.atom ∧ a.is_positive = b.is_positive := by
  simp [litEq]

theorem litEq_refl (a : Literal) : litEq a a = true := by
  simp [litEq]

theorem mem_insertByStr {x l : Literal} :
    ∀ xs : List Literal, x ∈ insertByStr l xs ↔ x = l ∨ x ∈ xs := by
  intro xs
  induction xs with
  | nil => simp [insertByStr]
  | cons y ys ih =>
    simp only [insertByStr]
    by_cases hle : strLe (strLit l) (strLit y) = true
    · simp [hle, List.mem_cons]
    · simp only [hle, if_false, Bool.false_eq_true, List.mem_cons, ih]
      tauto

theorem mem_sortByStr {x : Literal} : ∀ xs : List Literal, x ∈ sortByStr xs ↔ x ∈ xs := by
  intro xs
  induction xs with
  | nil => simp [sortByStr]
  | cons y ys ih =>
    simp only [sortByStr, mem_insertByStr, ih, List.mem_cons]

theorem insertByStr_ne_nil (l : Literal) (xs : List Literal) : insertByStr l xs ≠ [] := by
  cases xs with
  | nil => simp [insertByStr]
  | cons y ys =>
    simp only [insertByStr]
    by_cases hle : strLe (strLit l) (strLit y) = true <;> simp [hle]

theorem sortByStr_ne_nil {xs : List Literal} (h : xs ≠ []) : sortByStr xs ≠ [] := by
  cases xs with
  | nil => exact absurd rfl h
  | cons y ys => exact insertByStr_ne_nil y (sortByStr ys)

theorem pyDedup_ne_nil {xs : List Literal} (h : xs ≠ []) : pyDedup litEq xs ≠ [] := by
  cases xs with
  | nil => exact absurd rfl h
  | cons y ys => simp [pyDedup, pyDedupAcc]

theorem pyDedupAcc_covers :
    ∀ (xs seen : List Literal) (x : Literal), x ∈ xs →
    (∃ y ∈ seen, litEq y x = true) ∨ ∃ y ∈ pyDedupAcc litEq seen xs, litEq y x = true := by
  intro xs
  induction xs with
  | nil =>
    intro seen x hx
    simp at hx
  | cons z zs ih =>
    intro seen x hx
    simp only [pyDedupAcc]
    by_cases hA : seen.any (fun s => litEq s z) = true
    · rw [if_pos hA]
      rcases List.mem_cons.mp hx with rfl | hx
      · obtain ⟨s, hs, hse⟩ := List.any_eq_true.mp hA
        exact Or.inl ⟨s, hs, hse⟩
      · exact ih seen x hx
    · rw [if_neg (by simp [hA])]
      rcases List.mem_cons.mp hx with rfl | hx
      · exact Or.inr ⟨x, List.mem_cons_self _ _, litEq_refl x⟩
      · rcases ih (z :: seen) x hx with ⟨y, hy, hye⟩ | ⟨y, hy, hye⟩
        · rcases List.mem_cons.mp hy with rfl | hy
          · exact Or.inr ⟨y, List.mem_cons_self _ _, hye⟩
          · exact Or.inl ⟨y, hy, hye⟩
        · exact Or.inr ⟨y, List.mem_cons_of_mem _ hy, hye⟩

theorem pyDedup_covers {xs : List Literal} {x : Literal} (hx : x ∈ xs) :
    ∃ y ∈ pyDedup litEq xs, litEq y x = true := by
  rcases pyDedupAcc_covers xs [] x hx with ⟨y, hy, _⟩ | h
  · simp at hy
  · exact h
theorem joinChars_cons2 (sep p q : Str) (r : List Str) :
    joinChars sep (p :: q :: r) = p ++ sep ++ joinChars sep (q :: r) := rfl

theorem mem_joinChars (sep : Str) :
    ∀ (ps : List Str) (c : Char), c ∈ joinChars sep ps → (∃ p ∈ ps, c ∈ p) ∨ c ∈ sep := by
  intro ps
  induction ps with
  | nil =>
    intro c hc
    simp [joinChars] at hc
  | cons p qs ih =>
    intro c hc
    cases qs with
    | nil => exact Or.inl ⟨p, List.mem_cons_self _ _, hc⟩
    | cons q rs =>
      rw [joinChars_cons2] at hc
      rcases List.mem_append.mp hc with h1 | h2
      · rcases List.mem_append.mp h1 with h3 | h4
        · exact Or.inl ⟨p, List.mem_cons_self _ _, h3⟩
        · exact Or.inr h4
      · rcases ih c h2 with ⟨u, hu, hcu⟩ | hs
        · exact Or.inl ⟨u, List.mem_cons_of_mem _ hu, hcu⟩
        · exact Or.inr hs

theorem joinChars_ne_nil {sep t : Str} (ht : t ≠ []) (ts : List Str) :
    joinChars sep (t :: ts) ≠ [] := by
  cases ts with
  | nil => exact ht
  | cons q rs =>
    rw [joinChars_cons2]
    intro hcontra
    simp only [List.append_eq_nil] at hcontra
    exact ht hcontra.1.1

theorem joinChars_head? {sep t : Str} (ht : t ≠ []) (ts : List Str) :
    (joinChars sep (t :: ts)).head? = t.head? := by
  cases ts with
  | nil => rfl
  | cons q rs =>
    rw [joinChars_cons2, List.append_assoc]
    exact head?_append_left _ ht

theorem joinChars_getLast? {sep : Str} :
    ∀ ts : List Str, (∀ t ∈ ts, t ≠ []) → ts ≠ [] →
    ∃ t ∈ ts, (joinChars sep ts).getLast? = t.getLast? := by
  intro ts
  induction ts with
  | nil =>
    intro _ h
    exact absurd rfl h
  | cons t rs ih =>
    intro hall _
    cases rs with
    | nil => exact ⟨t, List.mem_cons_self _ _, rfl⟩
    | cons q rs' =>
      obtain ⟨u, hu, hue⟩ := ih (fun x hx => hall x (List.mem_cons_of_mem _ hx)) (by simp)
      refine ⟨u, List.mem_cons_of_mem _ hu, ?_⟩
      rw [joinChars_cons2, List.append_assoc]
      have hjoin : joinChars sep (q :: rs') ≠ [] :=
        joinChars_ne_nil (hall q (by simp)) rs'
      rw [List.getLast?_append_of_ne_nil _ (by
        intro hc
        simp only [List.append_eq_nil] at hc
        exact hjoin hc.2)]
      rw [List.getLast?_append_of_ne_nil _ hjoin]
      exact hue

theorem pySplit_join_comma :
    ∀ (ts : List Str) (t : Str), (∀ u ∈ t :: ts, (',' : Char) ∉ u) →
    pySplit [','] (joinChars [',', ' '] (t :: ts)) = t :: ts.map (fun u => ' ' :: u) := by
  intro ts
  induction ts with
  | nil =>
    intro t hmem
    exact pySplit_no_occur (hmem t (List.mem_cons_self _ _))
  | cons q rs ih =>
    intro t hmem
    rw [joinChars_cons2]
    rw [show (t ++ [',', ' '] ++ joinChars [',', ' '] (q :: rs) : Str)
        = t ++ [','] ++ (' ' :: joinChars [',', ' '] (q :: rs)) by simp]
    rw [pySplit_append_sep (by simp) (fun c hc => by
      intro hcm
      simp only [List.mem_singleton] at hcm
      subst hcm
      exact hmem t (List.mem_cons_self _ _) hc)]
    have hrec := ih q (fun u hu => hmem u (List.mem_cons_of_mem _ hu))
    rw [pySplit_cons_single (show (' ' : Char) ≠ ',' by decide) hrec]
    simp
theorem parseLiteral_parsed {s : Str} {st : PState} {l : Literal} {st' : PState}
    (hInv : RegParsed st.literals) (h : parseLiteral s st = .ok (l, st')) :
    RegParsed st'.literals ∧ (l.atom, l.is_positive) = tokenVal (pyStrip s) := by
  simp only [parseLiteral] at h
  cases hl : lookupS st.literals (pyStrip s) with
  | some l0 =>
    rw [hl] at h
    simp only [Except.ok.injEq, Prod.mk.injEq] at h
    obtain ⟨rfl, rfl⟩ := h
    exact ⟨hInv, (hInv _ (lookupS_mem hl)).2⟩
  | none =>
    rw [hl] at h
    cases ht : pyStrip s with
    | nil =>
      rw [ht] at h
      simp at h
    | cons c rest =>
      rw [ht] at h
      simp only [Except.ok.injEq, Prod.mk.injEq] at h
      obtain ⟨rfl, rfl⟩ := h
      constructor
      · intro kv hkv
        rcases List.mem_append.mp hkv with hold | hnew
        · exact hInv _ hold
        · simp at hnew
          rw [hnew]
          exact ⟨by simp, tokenLit_val _ _⟩
      · exact tokenLit_val _ _

theorem parseLiteral_total {t : Str} (st : PState) (h : pyStrip t ≠ []) :
    ∃ l st', parseLiteral t st = .ok (l, st') := by
  simp only [parseLiteral]
  cases hl : lookupS st.literals (pyStrip t) with
  | some l0 => exact ⟨l0, st, rfl⟩
  | none =>
    cases ht : pyStrip t with
    | nil => exact absurd ht h
    | cons c rest => exact ⟨_, _, rfl⟩

theorem parseLiteralsGo_total :
    ∀ (parts : List Str) (acc : List Literal) (st : PState),
    (∀ p ∈ parts, pyStrip (pyStrip p) = pyStrip p) →
    ∃ out st', parseLiteralsGo parts acc st = .ok (out, st') := by
  intro parts
  induction parts with
  | nil =>
    intro acc st _
    exact ⟨acc, st, rfl⟩
  | cons p rest ih =>
    intro acc st hidem
    simp only [parseLiteralsGo]
    by_cases hP : pyStrip p = []
    · rw [if_pos hP]
      exact ih acc st (fun q hq => hidem q (List.mem_cons_of_mem _ hq))
    · rw [if_neg hP]
      have hstrip : pyStrip (pyStrip p) ≠ [] := by
        rw [hidem p (List.mem_cons_self _ _)]
        exact hP
      obtain ⟨l, st1, hpl⟩ := parseLiteral_total st hstrip
      rw [hpl]
      exact ih _ st1 (fun q hq => hidem q (List.mem_cons_of_mem _ hq))

theorem parseLiteralsGo_val :
    ∀ (parts : List Str) (acc : List Literal) (st : PState) (out : List Literal)
      (st' : PState),
    RegParsed st.literals →
    (∀ p ∈ parts, pyStrip (pyStrip p) = pyStrip p) →
    parseLiteralsGo parts acc st = .ok (out, st') →
    RegParsed st'.literals
      ∧ (∀ x ∈ out, x ∈ acc ∨ ∃ p ∈ parts, pyStrip p ≠ [] ∧
          (x.atom, x.is_positive) = tokenVal (pyStrip p))
      ∧ (∀ x ∈ acc, x ∈ out)
      ∧ (∀ p ∈ parts, pyStrip p = [] ∨ ∃ x ∈ out,
          (x.atom, x.is_positive) = tokenVal (pyStrip p)) := by
  intro parts
  induction parts with
  | nil =>
    intro acc st out st' hInv _ h
    simp only [parseLiteralsGo, Except.ok.injEq, Prod.mk.injEq] at h
    obtain ⟨rfl, rfl⟩ := h
    refine ⟨hInv, fun x hx => Or.inl hx, fun x hx => hx, ?_⟩
    intro p hp
    simp at hp
  | cons p rest ih =>
    intro acc st out st' hInv hidem h
    simp only [parseLiteralsGo] at h
    by_cases hP : pyStrip p = []
    · rw [if_pos hP] at h
      obtain ⟨hInv', hout, hsub, hparts⟩ :=
        ih acc st out st' hInv (fun q hq => hidem q (List.mem_cons_of_mem _ hq)) h
      refine ⟨hInv', ?_, hsub, ?_⟩
      · intro x hx
        rcases hout x hx with h1 | ⟨q, hq, hqq⟩
        · exact Or.inl h1
        · exact Or.inr ⟨q, List.mem_cons_of_mem _ hq, hqq⟩
      · intro q hq
        rcases List.mem_cons.mp hq with rfl | hq
        · exact Or.inl hP
        · exact hparts q hq
    · rw [if_neg hP] at h
      cases hpl : parseLiteral (pyStrip p) st with
      | error e =>
        rw [hpl] at h
        simp at h
      | ok pr =>
        obtain ⟨l, st1⟩ := pr
        rw [hpl] at h
        simp only [] at h
        obtain ⟨hInv1, hval⟩ := parseLiteral_parsed hInv hpl
        rw [hidem p (List.mem_cons_self _ _)] at hval
        obtain ⟨hInv2, hout2, hsub2, hparts2⟩ :=
          ih _ st1 out st' hInv1 (fun q hq => hidem q (List.mem_cons_of_mem _ hq)) h
        have hl_out : l ∈ out ∨ ∃ a ∈ acc, litEq a l = true := by
          by_cases hA : acc.any (fun a => litEq a l) = true
          · obtain ⟨a, ha, hae⟩ := List.any_eq_true.mp hA
            exact Or.inr ⟨a, ha, hae⟩
          · refine Or.inl (hsub2 l ?_)
            rw [if_neg (by simp [hA])]
            exact List.mem_append.mpr (Or.inr (List.mem_singleton.mpr rfl))
        have hacc_out : ∀ x ∈ acc, x ∈ out := by
          intro x hx
          by_cases hA : acc.any (fun a => litEq a l) = true
          · rw [if_pos hA] at h hsub2
            exact hsub2 x hx
          · rw [if_neg (by simp [hA])] at h hsub2
            exact hsub2 x (List.mem_append.mpr (Or.inl hx))
        refine ⟨hInv2, ?_, hacc_out, ?_⟩
        · intro x hx
          rcases hout2 x hx with h1 | ⟨q, hq, hqq⟩
          · by_cases hA : acc.any (fun a => litEq a l) = true
            · rw [if_pos hA] at h1
              exact Or.inl h1
            · rw [if_neg (by simp [hA])] at h1
              rcases List.mem_append.mp h1 with h2 | h2
              · exact Or.inl h2
              · simp at h2
                subst h2
                exact Or.inr ⟨p, List.mem_cons_self _ _, hP, hval⟩
          · exact Or.inr ⟨q, List.mem_cons_of_mem _ hq, hqq⟩
        · intro q hq
          rcases List.mem_cons.mp hq with rfl | hq
          · refine Or.inr ?_
            rcases hl_out with hlo | ⟨a, ha, hae⟩
            · exact ⟨l, hlo, hval⟩
            · refine ⟨a, hacc_out a ha, ?_⟩
              rw [litEq_iff] at hae
              rw [← hval]
              rw [Prod.mk.injEq]
              exact ⟨hae.1, hae.2⟩
          · exact hparts2 q hq
theorem join_body_chars {ms : List Literal} (hwf : ∀ m ∈ ms, wfLit m) :
    ∀ c ∈ joinChars [',', ' '] (ms.map strLit),
    c = ',' ∨ c = ' ' ∨ c = '~' ∨ isWordChar c = true := by
  intro c hc
  rcases mem_joinChars _ _ c hc with ⟨tk, htk, hctk⟩ | hsep
  · obtain ⟨m, hm, rfl⟩ := List.mem_map.mp htk
    rcases strLit_chars (hwf m hm) c hctk with rfl | hw
    · exact Or.inr (Or.inr (Or.inl rfl))
    · exact Or.inr (Or.inr (Or.inr hw))
  · simp at hsep
    rcases hsep with rfl | rfl
    · exact Or.inl rfl
    · exact Or.inr (Or.inl rfl)

theorem join_body_ne_nil {m0 : Literal} (ms : List Literal) (hwf0 : wfLit m0) :
    joinChars [',', ' '] ((m0 :: ms).map strLit) ≠ [] := by
  rw [List.map_cons]
  exact joinChars_ne_nil (strLit_ne_nil hwf0) _

theorem join_body_strip {m0 : Literal} {ms : List Literal}
    (hwf : ∀ m ∈ m0 :: ms, wfLit m) :
    pyStrip (joinChars [',', ' '] ((m0 :: ms).map strLit))
      = joinChars [',', ' '] ((m0 :: ms).map strLit) := by
  have htokne : ∀ t ∈ strLit m0 :: ms.map strLit, t ≠ [] := by
    intro t ht
    rcases List.mem_cons.mp ht with rfl | ht
    · exact strLit_ne_nil (hwf m0 (List.mem_cons_self _ _))
    · obtain ⟨m, hm, rfl⟩ := List.mem_map.mp ht
      exact strLit_ne_nil (hwf m (List.mem_cons_of_mem _ hm))
  rw [List.map_cons]
  apply pyStrip_eq_self
  · intro x hx
    rw [joinChars_head? (strLit_ne_nil (hwf m0 (List.mem_cons_self _ _)))] at hx
    exact strLit_head_not_space (hwf m0 (List.mem_cons_self _ _)) x hx
  · intro x hx
    obtain ⟨tk, htk, hts⟩ := joinChars_getLast? (strLit m0 :: ms.map strLit) htokne (by simp)
    rw [hts] at hx
    rcases List.mem_cons.mp htk with rfl | htk
    · exact isWordChar_not_space (strLit_getLast_word (hwf m0 (List.mem_cons_self _ _)) x hx)
    · obtain ⟨m, hm, rfl⟩ := List.mem_map.mp htk
      exact isWordChar_not_space
        (strLit_getLast_word (hwf m (List.mem_cons_of_mem _ hm)) x hx)

theorem parse_literals_set {m0 : Literal} {ms : List Literal} {st : PState}
    (hInv : RegParsed st.literals) (hwf : ∀ m ∈ m0 :: ms, wfLit m) :
    ∃ out st',
      parseLiterals (joinChars [',', ' '] ((m0 :: ms).map strLit)) st = .ok (out, st')
      ∧ RegParsed st'.literals
      ∧ (∀ x ∈ out, ∃ m ∈ m0 :: ms, litEq x m = true)
      ∧ (∀ m ∈ m0 :: ms, ∃ x ∈ out, litEq m x = true) := by
  have hcommafree : ∀ u ∈ strLit m0 :: ms.map strLit, (',' : Char) ∉ u := by
    intro u hu hcm
    rcases List.mem_cons.mp hu with rfl | hu
    · rcases strLit_chars (hwf m0 (List.mem_cons_self _ _)) ',' hcm with h | h
      · exact absurd h (by decide)
      · exact absurd h (by decide)
    · obtain ⟨m, hm, rfl⟩ := List.mem_map.mp hu
      rcases strLit_chars (hwf m (List.mem_cons_of_mem _ hm)) ',' hcm with h | h
      · exact absurd h (by decide)
      · exact absurd h (by decide)
  have hsplitc : pySplit [','] (joinChars [',', ' '] ((m0 :: ms).map strLit))
      = strLit m0 :: (ms.map strLit).map (fun u => ' ' :: u) := by
    rw [List.map_cons]
    exact pySplit_join_comma (ms.map strLit) (strLit m0) hcommafree
  have hpartdisj : ∀ p ∈ strLit m0 :: (ms.map strLit).map (fun u => ' ' :: u),
      ∃ m ∈ m0 :: ms, pyStrip p = strLit m := by
    intro p hp
    rcases List.mem_cons.mp hp with rfl | hp
    · exact ⟨m0, List.mem_cons_self _ _,
        pyStrip_strLit (hwf m0 (List.mem_cons_self _ _))⟩
    · obtain ⟨u, hu, rfl⟩ := List.mem_map.mp hp
      obtain ⟨m, hm, rfl⟩ := List.mem_map.mp hu
      refine ⟨m, List.mem_cons_of_mem _ hm, ?_⟩
      rw [pyStrip_cons_space (by decide)]
      exact pyStrip_strLit (hwf m (List.mem_cons_of_mem _ hm))
  have hidem : ∀ p ∈ strLit m0 :: (ms.map strLit).map (fun u => ' ' :: u),
      pyStrip (pyStrip p) = pyStrip p := by
    intro p hp
    obtain ⟨m, hm, he⟩ := hpartdisj p hp
    rw [he]
    exact pyStrip_strLit (hwf m hm)
  have hcover : ∀ m ∈ m0 :: ms,
      ∃ p ∈ strLit m0 :: (ms.map strLit).map (fun u => ' ' :: u),
      pyStrip p = strLit m := by
    intro m hm
    rcases List.mem_cons.mp hm with rfl | hm
    · exact ⟨strLit m, List.mem_cons_self _ _,
        pyStrip_strLit (hwf m (List.mem_cons_self _ _))⟩
    · refine ⟨' ' :: strLit m, ?_, ?_⟩
      · exact List.mem_cons_of_mem _
          (List.mem_map.mpr ⟨strLit m, List.mem_map.mpr ⟨m, hm, rfl⟩, rfl⟩)
      · rw [pyStrip_cons_space (by decide)]
        exact pyStrip_strLit (hwf m (List.mem_cons_of_mem _ hm))
  obtain ⟨out, st', hgo⟩ := parseLiteralsGo_total _ [] st hidem
  obtain ⟨hInv', hout, _, hparts⟩ := parseLiteralsGo_val _ [] st out st' hInv hidem hgo
  refine ⟨out, st', ?_, hInv', ?_, ?_⟩
  · simp only [parseLiterals]
    rw [hsplitc]
    exact hgo
  · intro x hx
    rcases hout x hx with h1 | ⟨p, hp, _, hval⟩
    · simp at h1
    · obtain ⟨m, hm, he⟩ := hpartdisj p hp
      rw [he, tokenVal_strLit (hwf m hm)] at hval
      refine ⟨m, hm, ?_⟩
      rw [litEq_iff]
      rw [Prod.mk.injEq] at hval
      exact hval
  · intro m hm
    obtain ⟨p, hp, he⟩ := hcover m hm
    rcases hparts p hp with h1 | ⟨x, hx, hval⟩
    · rw [he] at h1
      exact absurd h1 (strLit_ne_nil (hwf m hm))
    · rw [he, tokenVal_strLit (hwf m hm)] at hval
      refine ⟨x, hx, ?_⟩
      rw [litEq_iff]
      rw [Prod.mk.injEq] at hval
      exact ⟨hval.1.symm, hval.2.symm⟩

theorem parse_clause_of_render {m0 : Literal} {ms : List Literal} {st : PState}
    (hInv : RegParsed st.literals) (hwf : ∀ m ∈ m0 :: ms, wfLit m) :
    ∃ cl st',
      parseClause (joinChars [',', ' '] ((m0 :: ms).map strLit)) st = .ok (cl, st')
      ∧ RegParsed st'.literals
      ∧ (∀ x ∈ cl.literals, ∃ m ∈ m0 :: ms, litEq x m = true)
      ∧ (∀ m ∈ m0 :: ms, ∃ x ∈ cl.literals, litEq m x = true) := by
  obtain ⟨out, st', hpl, hInv', hout, hcov⟩ := parse_literals_set hInv hwf
  refine ⟨mkClause out, st', ?_, hInv', ?_, ?_⟩
  · simp only [parseClause]
    rw [hpl]
  · intro x hx
    exact hout x (pyDedup_subset _ _ x hx)
  · intro m hm
    obtain ⟨x, hx, he⟩ := hcov m hm
    obtain ⟨y, hy, hye⟩ := pyDedup_covers hx
    refine ⟨y, hy, ?_⟩
    rw [litEq_iff] at he hye ⊢
    exact ⟨he.1.trans hye.1.symm, he.2.trans hye.2.symm⟩
theorem join_body_no_dot {ms : List Literal} (hwf : ∀ m ∈ ms, wfLit m) :
    ('.' : Char) ∉ joinChars [',', ' '] (ms.map strLit) := by
  intro hc
  rcases join_body_chars hwf '.' hc with h | h | h | h
  · exact absurd h (by decide)
  · exact absurd h (by decide)
  · exact absurd h (by decide)
  · exact absurd h (by decide)

theorem join_body_no_colon {ms : List Literal} (hwf : ∀ m ∈ ms, wfLit m) :
    (':' : Char) ∉ joinChars [',', ' '] (ms.map strLit) := by
  intro hc
  rcases join_body_chars hwf ':' hc with h | h | h | h
  · exact absurd h (by decide)
  · exact absurd h (by decide)
  · exact absurd h (by decide)
  · exact absurd h (by decide)

theorem c8_clause_round {ls : List Literal} (hne : ls ≠ [])
    (hwf : ∀ l ∈ ls, wfLit l) : roundClause ls = true := by
  cases hsorted : sortByStr (pyDedup litEq ls) with
  | nil => exact absurd hsorted (sortByStr_ne_nil (pyDedup_ne_nil hne))
  | cons s0 srest =>
    have hsortmem : ∀ m : Literal, m ∈ s0 :: srest ↔ m ∈ pyDedup litEq ls := by
      intro m
      rw [← hsorted]
      exact mem_sortByStr _
    have hsortwf : ∀ m ∈ s0 :: srest, wfLit m :=
      fun m hm => hwf m (pyDedup_subset _ _ m ((hsortmem m).mp hm))
    have hs0wf : wfLit s0 := hsortwf s0 (List.mem_cons_self _ _)
    have hrender : strClause (mkClause ls)
        = joinChars [',', ' '] ((s0 :: srest).map strLit) ++ ['.'] := by
      simp only [strClause, mkClause]
      rw [hsorted]
    have hdot : pySplit ['.'] (joinChars [',', ' '] ((s0 :: srest).map strLit) ++ ['.'])
        = [joinChars [',', ' '] ((s0 :: srest).map strLit), []] := by
      rw [show (joinChars [',', ' '] ((s0 :: srest).map strLit) ++ ['.'] : Str)
          = joinChars [',', ' '] ((s0 :: srest).map strLit) ++ ['.'] ++ [] by simp]
      rw [pySplit_append_sep (by simp) (by
        intro c hc hcm
        simp only [List.mem_singleton] at hcm
        subst hcm
        exact join_body_no_dot hsortwf hc)]
      rw [pySplit_nil_sep]
    obtain ⟨cl, st', hpc, _, hout, hcov⟩ :=
      @parse_clause_of_render _ _ ⟨0, []⟩ (by intro kv hkv; simp at hkv) hsortwf
    have hparse : pyParseChars (strClause (mkClause ls)) = .ok [Content.clause cl] := by
      rw [hrender]
      simp only [pyParseChars, parseContents]
      rw [hdot]
      simp only [parseContentsGo]
      rw [join_body_strip hsortwf]
      rw [if_neg (join_body_ne_nil srest hs0wf)]
      rw [if_neg (by
        simp only [Bool.not_eq_true]
        apply containsSeq_false_of_notMem
        exact join_body_no_colon hsortwf)]
      rw [hpc]
      simp only [List.any_nil, Bool.false_eq_true, if_false, List.nil_append]
      rfl
    have hceq : clauseEq cl (mkClause ls) = true := by
      simp only [clauseEq, listSetEq, Bool.and_eq_true, List.all_eq_true]
      constructor
      · intro x hx
        obtain ⟨m, hm, hme⟩ := hout x hx
        exact List.any_eq_true.mpr ⟨m, (hsortmem m).mp hm, hme⟩
      · intro y hy
        obtain ⟨x, hx, hxe⟩ := hcov y ((hsortmem y).mpr hy)
        refine List.any_eq_true.mpr ⟨x, hx, ?_⟩
        rw [litEq_iff] at hxe ⊢
        exact ⟨hxe.1.symm, hxe.2.symm⟩
    simp only [roundClause]
    rw [hparse]
    exact hceq
theorem join_body_getLast_word {m0 : Literal} {ms : List Literal}
    (hwf : ∀ m ∈ m0 :: ms, wfLit m) :
    ∀ x, (joinChars [',', ' '] ((m0 :: ms).map strLit)).getLast? = some x →
    isWordChar x = true := by
  intro x hx
  have htokne : ∀ t ∈ strLit m0 :: ms.map strLit, t ≠ [] := by
    intro t ht
    rcases List.mem_cons.mp ht with rfl | ht
    · exact strLit_ne_nil (hwf m0 (List.mem_cons_self _ _))
    · obtain ⟨m, hm, rfl⟩ := List.mem_map.mp ht
      exact strLit_ne_nil (hwf m (List.mem_cons_of_mem _ hm))
  rw [List.map_cons] at hx
  obtain ⟨tk, htk, hts⟩ := joinChars_getLast? (strLit m0 :: ms.map strLit) htokne (by simp)
  rw [hts] at hx
  rcases List.mem_cons.mp htk with rfl | htk
  · exact strLit_getLast_word (hwf m0 (List.mem_cons_self _ _)) x hx
  · obtain ⟨m, hm, rfl⟩ := List.mem_map.mp htk
    exact strLit_getLast_word (hwf m (List.mem_cons_of_mem _ hm)) x hx

theorem strLit_no_colon_dash {h : Literal} (hwfh : wfLit h) :
    ∀ c ∈ strLit h, c ∉ ([':', '-'] : Str) := by
  intro c hc hcm
  simp only [List.mem_cons, List.mem_singleton, List.not_mem_nil, or_false] at hcm
  rcases strLit_chars hwfh c hc with rfl | hw
  · rcases hcm with h1 | h1 <;> exact absurd h1 (by decide)
  · rcases hcm with rfl | rfl
    · exact absurd hw (by decide)
    · exact absurd hw (by decide)

theorem strLit_no_dot {h : Literal} (hwfh : wfLit h) :
    ∀ c ∈ strLit h, c ∉ (['.'] : Str) := by
  intro c hc hcm
  simp only [List.mem_singleton] at hcm
  subst hcm
  rcases strLit_chars hwfh '.' hc with h1 | h1
  · exact absurd h1 (by decide)
  · exact absurd h1 (by decide)

theorem parse_head_token {hl : Literal} (st : PState)
    (hInv : RegParsed st.literals) (hwfh : wfLit hl) :
    ∃ hd st1, parseLiteral (pyStrip (strLit hl)) st = .ok (hd, st1)
      ∧ RegParsed st1.literals ∧ litEq hd hl = true := by
  rw [pyStrip_strLit hwfh]
  obtain ⟨hd, st1, hhd⟩ := parseLiteral_total st (by
    rw [pyStrip_strLit hwfh]
    exact strLit_ne_nil hwfh)
  obtain ⟨hInv1, hval⟩ := parseLiteral_parsed hInv hhd
  rw [pyStrip_strLit hwfh, tokenVal_strLit hwfh] at hval
  refine ⟨hd, st1, hhd, hInv1, ?_⟩
  rw [litEq_iff]
  rw [Prod.mk.injEq] at hval
  exact hval
theorem rule_round_empty {h : Literal} {bs : List Literal} (hwfh : wfLit h)
    (hB : pyDedup litEq bs = []) : roundRule h bs = true := by
  have hrender : strRule (mkRule h bs)
      = strLit h ++ [':', '-', ' '] ++ ['.'] ++ [] := by
    simp only [strRule, mkRule, hB, List.map_nil]
    simp [joinChars]
  have hchars : ∀ c ∈ strLit h ++ ([':', '-', ' '] : Str), c ∉ (['.'] : Str) := by
    intro c hc hcm
    simp only [List.mem_singleton] at hcm
    subst hcm
    rcases List.mem_append.mp hc with h1 | h1
    · exact strLit_no_dot hwfh '.' h1 (by simp)
    · simp at h1
  have hdot : pySplit ['.'] (strLit h ++ [':', '-', ' '] ++ ['.'] ++ [])
      = [strLit h ++ [':', '-', ' '], []] := by
    rw [pySplit_append_sep (by simp) hchars]
    rw [pySplit_nil_sep]
  have hXhead : ∀ x, (strLit h ++ [':', '-'] : Str).head? = some x → isPySpace x = false := by
    intro x hx
    rw [head?_append_left _ (strLit_ne_nil hwfh)] at hx
    exact strLit_head_not_space hwfh x hx
  have hXlast : ∀ x, (strLit h ++ [':', '-'] : Str).getLast? = some x → isPySpace x = false := by
    intro x hx
    rw [List.getLast?_append_of_ne_nil _ (by simp)] at hx
    simp at hx
    rw [← hx]
    decide
  have hstrip : pyStrip (strLit h ++ [':', '-', ' ']) = strLit h ++ [':', '-'] := by
    rw [show (strLit h ++ [':', '-', ' '] : Str) = (strLit h ++ [':', '-']) ++ [' '] by simp]
    exact pyStrip_append_space hXhead hXlast
  have hne : ¬(strLit h ++ [':', '-'] : Str) = [] := by simp
  have hcont : containsSeq [':', '-'] (strLit h ++ [':', '-']) = true := by
    rw [show (strLit h ++ [':', '-'] : Str) = strLit h ++ ([':', '-'] ++ []) by simp]
    exact containsSeq_append_sep ':' ['-'] [] (strLit h)
  have hsplitr : pySplit [':', '-'] (strLit h ++ [':', '-']) = [strLit h, []] := by
    rw [show (strLit h ++ [':', '-'] : Str) = strLit h ++ [':', '-'] ++ [] by simp]
    rw [pySplit_append_sep (by simp) (strLit_no_colon_dash hwfh)]
    rw [pySplit_nil_sep]
  obtain ⟨hd, st1, hhd, _, hdeq⟩ :=
    parse_head_token (⟨0, []⟩ : PState) (by intro kv hkv; simp at hkv) hwfh
  have hpr : parseRule (strLit h ++ [':', '-']) ⟨0, []⟩ = .ok (mkRule hd [], st1) := by
    simp only [parseRule]
    rw [hsplitr]
    simp only []
    rw [hhd]
    simp only []
    rw [show parseLiterals (pyStrip ([] : Str)) st1 = .ok ([], st1) from rfl]
  have hparse : pyParseChars (strRule (mkRule h bs)) = .ok [Content.rule (mkRule hd [])] := by
    rw [hrender]
    simp only [pyParseChars, parseContents]
    rw [hdot]
    simp only [parseContentsGo]
    rw [hstrip]
    rw [if_neg hne]
    rw [if_pos hcont]
    rw [hpr]
    simp only [List.any_nil, Bool.false_eq_true, if_false, List.nil_append]
    rfl
  have hreq : ruleEq (mkRule hd []) (mkRule h bs) = true := by
    simp only [ruleEq, mkRule, hB, Bool.and_eq_true]
    exact ⟨hdeq, rfl⟩
  simp only [roundRule]
  rw [hparse]
  simp only []
  exact hreq
theorem rule_round_cons {h b0 : Literal} {bs brest : List Literal}
    (hwfh : wfLit h) (hwfb : ∀ l ∈ bs, wfLit l)
    (hB : pyDedup litEq bs = b0 :: brest) : roundRule h bs = true := by
  have hbwf : ∀ m ∈ b0 :: brest, wfLit m := by
    intro m hm
    exact hwfb m (pyDedup_subset _ _ m (hB ▸ hm))
  have hrender : strRule (mkRule h bs)
      = strLit h ++ [':', '-', ' '] ++ joinChars [',', ' '] ((b0 :: brest).map strLit)
        ++ ['.'] ++ [] := by
    simp only [strRule, mkRule, hB]
    simp
  have hchars : ∀ c ∈ strLit h ++ [':', '-', ' ']
      ++ joinChars [',', ' '] ((b0 :: brest).map strLit), c ∉ (['.'] : Str) := by
    intro c hc hcm
    simp only [List.mem_singleton] at hcm
    subst hcm
    rcases List.mem_append.mp hc with h1 | h1
    · rcases List.mem_append.mp h1 with h2 | h2
      · exact strLit_no_dot hwfh '.' h2 (by simp)
      · simp at h2
    · exact join_body_no_dot hbwf h1
  have hdot : pySplit ['.'] (strLit h ++ [':', '-', ' ']
      ++ joinChars [',', ' '] ((b0 :: brest).map strLit) ++ ['.'] ++ [])
      = [strLit h ++ [':', '-', ' '] ++ joinChars [',', ' '] ((b0 :: brest).map strLit),
         []] := by
    rw [pySplit_append_sep (by simp) hchars]
    rw [pySplit_nil_sep]
  have hstripP : pyStrip (strLit h ++ [':', '-', ' ']
      ++ joinChars [',', ' '] ((b0 :: brest).map strLit))
      = strLit h ++ [':', '-', ' '] ++ joinChars [',', ' '] ((b0 :: brest).map strLit) := by
    apply pyStrip_eq_self
    · intro x hx
      rw [head?_append_left _ (by simp [strLit_ne_nil hwfh])] at hx
      rw [head?_append_left _ (strLit_ne_nil hwfh)] at hx
      exact strLit_head_not_space hwfh x hx
    · intro x hx
      rw [List.getLast?_append_of_ne_nil _ (join_body_ne_nil brest
        (hbwf b0 (List.mem_cons_self _ _)))] at hx
      exact isWordChar_not_space (join_body_getLast_word hbwf x hx)
  have hPne : ¬(strLit h ++ [':', '-', ' ']
      ++ joinChars [',', ' '] ((b0 :: brest).map strLit) : Str) = [] := by
    simp
  have hcont : containsSeq [':', '-'] (strLit h ++ [':', '-', ' ']
      ++ joinChars [',', ' '] ((b0 :: brest).map strLit)) = true := by
    rw [show (strLit h ++ [':', '-', ' ']
        ++ joinChars [',', ' '] ((b0 :: brest).map strLit) : Str)
        = strLit h ++ ([':', '-']
          ++ (' ' :: joinChars [',', ' '] ((b0 :: brest).map strLit))) by simp]
    exact containsSeq_append_sep ':' ['-'] _ (strLit h)
  have hsplitr : pySplit [':', '-'] (strLit h ++ [':', '-', ' ']
      ++ joinChars [',', ' '] ((b0 :: brest).map strLit))
      = [strLit h, ' ' :: joinChars [',', ' '] ((b0 :: brest).map strLit)] := by
    rw [show (strLit h ++ [':', '-', ' ']
        ++ joinChars [',', ' '] ((b0 :: brest).map strLit) : Str)
        = strLit h ++ [':', '-']
          ++ (' ' :: joinChars [',', ' '] ((b0 :: brest).map strLit)) by simp]
    rw [pySplit_append_sep (by simp) (strLit_no_colon_dash hwfh)]
    rw [pySplit_no_occur (by
      intro hc
      rcases List.mem_cons.mp hc with h1 | h1
      · exact absurd h1 (by decide)
      · exact join_body_no_colon hbwf h1)]
  obtain ⟨hd, st1, hhd, hInv1, hdeq⟩ :=
    parse_head_token (⟨0, []⟩ : PState) (by intro kv hkv; simp at hkv) hwfh
  obtain ⟨out, st2, hplit, _, hout, hcov⟩ := @parse_literals_set _ _ st1 hInv1 hbwf
  have hpr : parseRule (strLit h ++ [':', '-', ' ']
      ++ joinChars [',', ' '] ((b0 :: brest).map strLit)) ⟨0, []⟩
      = .ok (mkRule hd out, st2) := by
    simp only [parseRule]
    rw [hsplitr]
    simp only []
    rw [hhd]
    simp only []
    rw [show pyStrip (' ' :: joinChars [',', ' '] ((b0 :: brest).map strLit))
        = joinChars [',', ' '] ((b0 :: brest).map strLit) by
      rw [pyStrip_cons_space (by decide)]
      exact join_body_strip hbwf]
    rw [hplit]
  have hparse : pyParseChars (strRule (mkRule h bs))
      = .ok [Content.rule (mkRule hd out)] := by
    rw [hrender]
    simp only [pyParseChars, parseContents]
    rw [hdot]
    simp only [parseContentsGo]
    rw [hstripP]
    rw [if_neg hPne]
    rw [if_pos hcont]
    rw [hpr]
    simp only [List.any_nil, Bool.false_eq_true, if_false, List.nil_append]
    rfl
  have hreq : ruleEq (mkRule hd out) (mkRule h bs) = true := by
    simp only [ruleEq, mkRule, hB, Bool.and_eq_true]
    refine ⟨hdeq, ?_⟩
    simp only [listSetEq, Bool.and_eq_true, List.all_eq_true]
    constructor
    · intro x hx
      obtain ⟨m, hm, hme⟩ := hout x (pyDedup_subset _ _ x hx)
      exact List.any_eq_true.mpr ⟨m, hm, hme⟩
    · intro y hy
      obtain ⟨x, hx, hxe⟩ := hcov y hy
      obtain ⟨x', hx', hxe'⟩ := pyDedup_covers hx
      refine List.any_eq_true.mpr ⟨x', hx', ?_⟩
      rw [litEq_iff] at hxe hxe' ⊢
      exact ⟨hxe'.1.trans hxe.1.symm, hxe'.2.trans hxe.2.symm⟩
  simp only [roundRule]
  rw [hparse]
  simp only []
  exact hreq
/-- C8 as amended: for every Clause value with a non-empty literal set whose
atoms are non-empty strings over `[A-Za-z0-9_]`, and every Rule value whose
head and body atoms are such strings, rendering the value to prolog syntax
and re-parsing the text yields exactly one statement, value-equal to the
original Clause (resp. Rule).  (Unrestricted, the claim is false: atoms are
never validated, and an atom containing `.` breaks the round trip.) -/
theorem c8_roundtrip_amended :
    (∀ ls : List Literal, ls ≠ [] → (∀ l ∈ ls, wfLit l) → roundClause ls = true)
      ∧ (∀ (h : Literal) (bs : List Literal), wfLit h → (∀ l ∈ bs, wfLit l) →
          roundRule h bs = true) := by
  constructor
  · intro ls hne hwf
    exact c8_clause_round hne hwf
  · intro h bs hwfh hwfb
    cases hB : pyDedup litEq bs with
    | nil => exact rule_round_empty hwfh hB
    | cons b0 brest => exact rule_round_cons hwfh hwfb hB

/-- Witness for C8 at a concrete clause (`beta.`) and rule (`g:- ~b.`). -/
theorem c8_roundtrip_witness :
    roundClause [⟨0, "beta".data, true⟩] = true
      ∧ roundRule ⟨0, "g".data, true⟩ [⟨1, "b".data, false⟩] = true :=
  ⟨c8_roundtrip_amended.1 [⟨0, "beta".data, true⟩] (by decide) (by decide),
   c8_roundtrip_amended.2 ⟨0, "g".data, true⟩ [⟨1, "b".data, false⟩] (by decide) (by decide)⟩

end Amadeus
